import Mathlib

/-!
# Verification of the maze game core

Shallow embedding of the maze game's core (`main.py`): the grid-graph
adjacency matrix (`AdjacencyMatrix.__init__`), randomized spanning-tree
generation (`AdjacencyMatrix.random_prims`), tile layout (`Game.create_grid`)
and per-axis movement resolution (`Player.move`).

Conventions: Python ints are `Nat`/`Int` (Python `//` on ints is `Int.fdiv`);
the screen coordinates produced by the tile layout are modelled as exact
rationals; the player movement code is modelled over the reals because the
source normalizes the input vector by its Euclidean magnitude (a square
root).  Matrices are lists of lists exactly as in the source, with
out-of-range reads defaulting to `0` (never exercised by the algorithms).
-/

namespace MazeGame

/-- Row `v` of the adjacency matrix as built by `AdjacencyMatrix.__init__`
(main.py lines 60-84): start from a zero row and set the entries for the
squares to the left, right, above and below, each under the source's guard.
The guards use `Int.fdiv`, which is Python's floor division `//`. -/
def fillRow (n total v : Nat) : List Nat :=
  let row0 := List.replicate total 0
  let row1 := if Int.fdiv ((v : Int) - 1) (n : Int) = Int.fdiv (v : Int) (n : Int)
    then row0.set (v - 1) 1 else row0
  let row2 := if Int.fdiv ((v : Int) + 1) (n : Int) = Int.fdiv (v : Int) (n : Int)
    then row1.set (v + 1) 1 else row1
  let row3 := if (0 : Int) ≤ (v : Int) - (n : Int)
    then row2.set (v - n) 1 else row2
  if v + n < total then row3.set (v + n) 1 else row3

/-- The matrix built by `AdjacencyMatrix.__init__`: one filled row per
vertex of the `n*n`-vertex grid. -/
def initMatrix (n : Nat) : List (List Nat) :=
  (List.range (n * n)).map (fun v => fillRow n (n * n) v)

/-- Read entry `[r][c]` of a matrix, `0` when out of range. -/
def mget (m : List (List Nat)) (r c : Nat) : Nat :=
  (m.getD r []).getD c 0

/-- Orthogonal grid adjacency as the specification words it: `v = u-1` or
`u+1` in the same row (row = index divided by `n`), or `v = u-n` or `u+n`
within `[0, n^2)`. Phrased over `Nat` with explicit successor equations to
avoid truncated subtraction. -/
def gridAdjacent (n u v : Nat) : Prop :=
  (v + 1 = u ∧ v / n = u / n) ∨ (u + 1 = v ∧ v / n = u / n) ∨
    (v + n = u) ∨ (u + n = v ∧ v < n * n)

instance (n u v : Nat) : Decidable (gridAdjacent n u v) := by
  unfold gridAdjacent; infer_instance

/-- Number of `1` entries in row `u` of the constructed matrix (the degree
of vertex `u` in the grid graph). -/
def deg (n u : Nat) : Nat :=
  ((Finset.range (n * n)).filter (fun v => mget (initMatrix n) u v = 1)).card

/-! ## Maze generation (`AdjacencyMatrix.random_prims`)

`random.choice` is modelled by an oracle `pick : Nat → Nat` giving, for each
iteration, an arbitrary index into the enumerated candidate list (reduced
modulo its length); a failing `random.choice` on an empty list is `none`. -/

/-- State of the generation loop: the (mutated) adjacency matrix, the
visited-vertex list and the edge list. -/
structure PrimState where
  matrix : List (List Nat)
  visited_vertices : List Nat
  edge_list : List (Nat × Nat)
deriving DecidableEq

/-- The candidate list built each iteration (main.py lines 120-123): for each
`column` in visited order, every `row` with `matrix[row][column] == 1`,
appended in enumeration order. -/
def availableList (total : Nat) (matrix : List (List Nat)) (visited : List Nat) :
    List (Nat × Nat) :=
  visited.flatMap (fun column =>
    ((List.range total).filter (fun row => mget matrix row column == 1)).map
      (fun row => (row, column)))

/-- One iteration of the generation loop (main.py lines 120-131): enumerate
candidates, choose one, record the edge, zero the chosen `from` row, mark it
visited.  `none` models `random.choice` raising on an empty sequence. -/
def primStep (total pick : Nat) (s : PrimState) : Option PrimState :=
  let avail := availableList total s.matrix s.visited_vertices
  if avail.isEmpty then none
  else
    let chosen_edge := avail.getD (pick % avail.length) (0, 0)
    some { matrix := s.matrix.set chosen_edge.1 (List.replicate total 0),
           visited_vertices := s.visited_vertices ++ [chosen_edge.1],
           edge_list := s.edge_list ++ [chosen_edge] }

/-- `k` iterations of the loop, consuming the oracle one value per step. -/
def primIter (total : Nat) (pick : Nat → Nat) : Nat → PrimState → Option PrimState
  | 0, s => some s
  | k + 1, s => (primStep total (pick 0) s).bind (primIter total (fun i => pick (i + 1)) k)

/-- State right before the loop: fresh adjacency matrix with row `0` zeroed,
`visited_vertices = [0]`, empty edge list (main.py lines 113-118). -/
def initState (n : Nat) : PrimState :=
  { matrix := (initMatrix n).set 0 (List.replicate (n * n) 0),
    visited_vertices := [0],
    edge_list := [] }

/-- `AdjacencyMatrix.random_prims`: run the loop `n*n - 1` times. -/
def random_prims (n : Nat) (pick : Nat → Nat) : Option PrimState :=
  primIter (n * n) pick (n * n - 1) (initState n)

/-- The always-first choice oracle, used for concrete runs. -/
def pickZero : Nat → Nat := fun _ => 0

/-- The edges recorded by the loop, relative to an accumulated visited list
`vs`: each edge goes from a fresh in-range vertex into the visited set, and
the fresh vertex is then accumulated. -/
def edgeChain (total : Nat) : List Nat → List (Nat × Nat) → Prop
  | _, [] => True
  | vs, e :: es => e.2 ∈ vs ∧ e.1 ∉ vs ∧ e.1 < total ∧ edgeChain total (vs ++ [e.1]) es

/-- Loop invariant of `random_prims`. -/
def Inv (n : Nat) (s : PrimState) : Prop :=
  s.visited_vertices = 0 :: s.edge_list.map Prod.fst ∧
  (∀ v ∈ s.visited_vertices, v < n * n) ∧
  s.visited_vertices.Nodup ∧
  edgeChain (n * n) [0] s.edge_list ∧
  s.matrix.length = n * n ∧
  (∀ r, r < n * n →
    s.matrix.getD r [] = if r ∈ s.visited_vertices then List.replicate (n * n) 0
      else fillRow n (n * n) r)

/-! ## The undirected graph of the recorded edge list -/

/-- Undirected graph on `Nat` whose adjacency is membership of the (ordered)
pair in the edge list, in either orientation. -/
def natGraph (E : List (Nat × Nat)) : SimpleGraph Nat :=
  SimpleGraph.fromRel (fun a b => (a, b) ∈ E)

/-- The same graph restricted to the `t` grid vertices. -/
def mazeGraph (t : Nat) (E : List (Nat × Nat)) : SimpleGraph (Fin t) :=
  (natGraph E).comap Fin.val

/-! ## Tile layout (`Game.create_grid`)

Screen coordinates are modelled as exact rationals (`WIN_WIDTH = 900` and
the derived spacings, main.py lines 20 and 139-141).  A `Square` carries its
position and its RGB colour tuple. -/

/-- A path square: position and RGB colour (the `pygame.Rect` is determined
by the position and the fixed side `small_square`). -/
structure SquareT where
  x : ℚ
  y : ℚ
  colour : Nat × Nat × Nat
deriving DecidableEq

instance : Inhabited SquareT := ⟨⟨0, 0, (0, 0, 0)⟩⟩

def COLOUR_Black : Nat × Nat × Nat := (0, 0, 0)

def COLOUR_Green : Nat × Nat × Nat := (0, 255, 0)

def WIN_WIDTH : ℚ := 900

/-- `self.base_square = WIN_WIDTH / self.squares_across`. -/
def base_square (n : Nat) : ℚ := WIN_WIDTH / n

/-- `self.small_square = self.base_square / 2`. -/
def small_square (n : Nat) : ℚ := base_square n / 2

/-- The base-square loop of `create_grid` (main.py lines 171-180): state
`(row, column)`; on `column = n` wrap to the next row; append the square at
`(row * base + small, column * base + small)`; then `column += 1`. -/
def createBaseAux (n : Nat) (b s : ℚ) : Nat → Nat → Nat → List SquareT
  | 0, _, _ => []
  | k + 1, row, column =>
      let row' := if column = n then row + 1 else row
      let col' := if column = n then 0 else column
      ⟨(row' : ℚ) * b + s, (col' : ℚ) * b + s, COLOUR_Black⟩ ::
        createBaseAux n b s k row' (col' + 1)

/-- `self.path_squares[-1].colour = COLOUR['Green']` (main.py line 183):
replace the last square by the same square coloured green. -/
def markGoal (l : List SquareT) : List SquareT :=
  l.set (l.length - 1) { l.getD (l.length - 1) default with colour := COLOUR_Green }

/-- A connector square at the midpoint of the two endpoint base squares
(main.py lines 187-191). -/
def connector (bases : List SquareT) (edge : Nat × Nat) : SquareT :=
  ⟨(1/2 : ℚ) * ((bases.getD edge.1 default).x + (bases.getD edge.2 default).x),
   (1/2 : ℚ) * ((bases.getD edge.1 default).y + (bases.getD edge.2 default).y),
   COLOUR_Black⟩

/-- `Game.create_grid` (main.py lines 167-191): the `n²` base squares, the
last one marked as the goal, followed by one connector square per edge at
the midpoint of the two endpoint base squares. -/
def create_grid (n : Nat) (edge_list : List (Nat × Nat)) : List SquareT :=
  let bases := markGoal (createBaseAux n (base_square n) (small_square n) (n * n) 0 0)
  bases ++ edge_list.map (connector bases)

/-! ## Movement resolution (`Player.move`)

Modelled over the reals: the source normalizes the input vector by its
Euclidean magnitude (`pygame.math.Vector2.normalize_ip`, a square root), so
the definitions in this section are noncomputable and classical.  A
`PathRect` is a path square's `pygame.Rect`; `collidepoint` is pygame's
half-open point-in-rectangle test. -/

noncomputable section MovementModel

open Classical

structure PathRect where
  x : ℝ
  y : ℝ
  w : ℝ
  h : ℝ

/-- `pygame.Rect.collidepoint`: inside means left/top inclusive,
right/bottom exclusive. -/
def collidepoint (r : PathRect) (p : ℝ × ℝ) : Bool :=
  decide (r.x ≤ p.1 ∧ p.1 < r.x + r.w ∧ r.y ≤ p.2 ∧ p.2 < r.y + r.h)

/-- The player: position, width, collision margin and velocity
(main.py lines 389-395). -/
@[ext]
structure PlayerS where
  pos : ℝ × ℝ
  width : ℝ
  collide_margin : ℝ
  velocity : ℝ

/-- `Player.gen_corners` (main.py lines 450-455): the four margin-inset
corners of the body at `coordinate`, in the source's list order. -/
def gen_corners (p : PlayerS) (coordinate : ℝ × ℝ) : List (ℝ × ℝ) :=
  [(coordinate.1 + p.width - p.collide_margin, coordinate.2 + p.collide_margin),
   (coordinate.1 + p.collide_margin, coordinate.2 + p.collide_margin),
   (coordinate.1 + p.collide_margin, coordinate.2 + p.width - p.collide_margin),
   (coordinate.1 + p.width - p.collide_margin, coordinate.2 + p.width - p.collide_margin)]

/-- `pygame.math.Vector2.magnitude`. -/
def magnitude (v : ℝ × ℝ) : ℝ := Real.sqrt (v.1 ^ 2 + v.2 ^ 2)

/-- Lines 406-407: `normalize_ip` unless the magnitude is `0` or `1`. -/
def normalized (movement_vector : ℝ × ℝ) : ℝ × ℝ :=
  if magnitude movement_vector = 0 ∨ magnitude movement_vector = 1 then movement_vector
  else (movement_vector.1 / magnitude movement_vector,
        movement_vector.2 / magnitude movement_vector)

/-- One iteration of the inner corner loop (main.py lines 422-430) for one
axis: skip everything once complete; otherwise mark a colliding corner and
set the completion flag when all four corners are marked. -/
def cornerStep (sq : PathRect) (corners : List (ℝ × ℝ)) (st : List Bool × Bool)
    (corner : Nat) : List Bool × Bool :=
  if st.2 then st
  else
    let flags := if collidepoint sq (corners.getD corner (0, 0)) then st.1.set corner true
      else st.1
    (flags, if flags = [true, true, true, true] then true else st.2)

/-- The four corner iterations for one tile, one axis. -/
def tileScan (corners : List (ℝ × ℝ)) (st : List Bool × Bool) (sq : PathRect) :
    List Bool × Bool :=
  (List.range 4).foldl (cornerStep sq corners) st

/-- One tile iteration of the scanning loop (main.py lines 421-439): the x
and y corner states advance through the same corner loop independently. -/
def tileStep (cornersX cornersY : List (ℝ × ℝ))
    (st : (List Bool × Bool) × (List Bool × Bool)) (sq : PathRect) :
    (List Bool × Bool) × (List Bool × Bool) :=
  (List.range 4).foldl
    (fun st2 corner =>
      (cornerStep sq cornersX st2.1 corner, cornerStep sq cornersY st2.2 corner))
    st

/-- `Player.move` (main.py lines 404-448). -/
def Player.move (path_squares : List PathRect) (delta_time : ℝ) (p : PlayerS)
    (movement_vector : ℝ × ℝ) : PlayerS :=
  let mv := normalized movement_vector
  let next_x := p.pos.1 + mv.1 * p.velocity * delta_time
  let next_y := p.pos.2 + mv.2 * p.velocity * delta_time
  let corners_for_x := gen_corners p (next_x, p.pos.2)
  let corners_for_y := gen_corners p (p.pos.1, next_y)
  let scanned := path_squares.foldl (tileStep corners_for_x corners_for_y)
    (([false, false, false, false], false), ([false, false, false, false], false))
  let pos1 := if scanned.1.2 then (next_x, p.pos.2) else p.pos
  let pos2 := if scanned.2.2 then (pos1.1, next_y) else pos1
  { p with pos := pos2 }

/-- All corners lie inside some path square. -/
def onPath (tiles : List PathRect) (corners : List (ℝ × ℝ)) : Prop :=
  ∀ c ∈ corners, ∃ sq ∈ tiles, collidepoint sq c = true

end MovementModel

/-- `cornerStep` with the four collision tests abstracted into a Boolean
function: `cornerStep sq corners = cornerStepB (fun k => collidepoint sq
(corners.getD k (0,0)))` definitionally. -/
def cornerStepB (p : Nat → Bool) (st : List Bool × Bool) (corner : Nat) : List Bool × Bool :=
  if st.2 then st
  else
    let flags := if p corner then st.1.set corner true else st.1
    (flags, if flags = [true, true, true, true] then true else st.2)

theorem getD_set {α : Type} (l : List α) (i j : Nat) (a d : α) :
    (l.set i a).getD j d = if j = i ∧ i < l.length then a else l.getD j d := by
  simp only [List.getD_eq_getElem?_getD, List.getElem?_set]
  by_cases h1 : i = j
  · subst h1
    by_cases h2 : i < l.length
    · simp [h2]
    · simp [h2, List.getElem?_eq_none (le_of_not_lt h2)]
  · have h3 : ¬(j = i ∧ i < l.length) := fun hc => h1 hc.1.symm
    simp [h1, h3]

theorem getD_ite_set_one (c : Prop) [Decidable c] (l : List Nat) (i v : Nat) :
    ((if c then l.set i 1 else l).getD v 0 = 1) ↔
      ((c ∧ v = i ∧ i < l.length) ∨ l.getD v 0 = 1) := by
  by_cases hc : c
  · simp only [hc, if_true, getD_set, true_and]
    split_ifs with h
    · simp [h]
    · simp [h]
  · simp [hc]

theorem getD_replicate_zero (t v : Nat) : (List.replicate t (0:Nat)).getD v 0 = 0 := by
  rw [List.getD_eq_getElem?_getD, List.getElem?_replicate]
  split <;> rfl

theorem fdiv_natCast (a n : Nat) : Int.fdiv (a : Int) (n : Int) = ((a / n : Nat) : Int) := by
  rw [Int.fdiv_eq_ediv _ (by positivity), Int.natCast_div]

theorem fdiv_neg_one (n : Nat) (hn : 1 ≤ n) : Int.fdiv (-1 : Int) (n : Int) = -1 := by
  rw [Int.fdiv_eq_ediv _ (by positivity)]
  have h2 : ((-1:Int)/(n:Int) = -1 ∧ (-1:Int) % (n:Int) = n-1) := by
    rw [Int.ediv_emod_unique (by exact_mod_cast hn)]
    refine ⟨by ring, by omega, by omega⟩
  exact h2.1

theorem guardL (n u : Nat) (hn : 1 ≤ n) :
    (Int.fdiv ((u:Int) - 1) (n : Int) = Int.fdiv (u:Int) (n : Int)) ↔
      (1 ≤ u ∧ (u-1)/n = u/n) := by
  rcases Nat.eq_zero_or_pos u with rfl | hu
  · simp only [Nat.cast_zero, zero_sub, fdiv_neg_one n hn, Int.zero_fdiv]
    constructor
    · intro h; omega
    · intro h; omega
  · have hcast : ((u:Int) - 1) = ((u-1 : Nat) : Int) := by omega
    rw [hcast, fdiv_natCast, fdiv_natCast, Int.natCast_inj]
    omega

theorem guardR (n u : Nat) :
    (Int.fdiv ((u:Int) + 1) (n : Int) = Int.fdiv (u:Int) (n : Int)) ↔
      ((u+1)/n = u/n) := by
  have hcast : ((u:Int) + 1) = ((u+1 : Nat) : Int) := by omega
  rw [hcast, fdiv_natCast, fdiv_natCast, Int.natCast_inj]

theorem guardU (n u : Nat) : ((0 : Int) ≤ (u:Int) - (n:Int)) ↔ n ≤ u := by omega

/-- The entries written by `AdjacencyMatrix.__init__` into row `u` are `1`
exactly at the orthogonally adjacent vertices. -/
theorem fillRow_one_iff (n u v : Nat) (hn : 2 ≤ n) (hu : u < n * n) :
    ((fillRow n (n * n) u).getD v 0 = 1) ↔ gridAdjacent n u v := by
  have hn0 : 0 < n := by omega
  have hdivu : u / n < n := (Nat.div_lt_iff_lt_mul hn0).mpr hu
  have hlen : ∀ (c : Prop) (inst : Decidable c) (a b : List Nat),
      (if c then a else b).length = if c then a.length else b.length := by
    intro c inst a b; split <;> rfl
  simp only [fillRow, getD_ite_set_one, hlen, List.length_set, List.length_replicate,
    getD_replicate_zero, ite_self]
  rw [guardL n u (by omega), guardR n u, guardU n u]
  simp only [gridAdjacent]
  constructor
  · rintro (⟨hD, rfl, _⟩ | ⟨hU, rfl, _⟩ | ⟨hR, rfl, _⟩ | ⟨⟨hu1, hL⟩, rfl, _⟩ | h0)
    · exact Or.inr (Or.inr (Or.inr ⟨rfl, hD⟩))
    · exact Or.inr (Or.inr (Or.inl (by omega)))
    · exact Or.inr (Or.inl ⟨rfl, hR⟩)
    · exact Or.inl ⟨by omega, by rw [hL]⟩
    · omega
  · rintro (⟨h5, h6⟩ | ⟨h5, h6⟩ | h5 | ⟨h5, h6⟩)
    · refine Or.inr (Or.inr (Or.inr (Or.inl ⟨⟨by omega, ?_⟩, by omega, by omega⟩)))
      have hv : u - 1 = v := by omega
      rw [hv]; exact h6
    · subst h5
      have hlt : u + 1 < n * n := by
        have h7 : (u + 1) / n < n := by rw [h6]; exact hdivu
        exact (Nat.div_lt_iff_lt_mul hn0).mp h7
      exact Or.inr (Or.inr (Or.inl ⟨h6, rfl, hlt⟩))
    · exact Or.inr (Or.inl ⟨by omega, by omega, by omega⟩)
    · exact Or.inl ⟨by omega, by omega, by omega⟩

theorem div_mod_decomp (n q r : Nat) (hn : 0 < n) (hr : r < n) :
    (n * q + r) / n = q ∧ (n * q + r) % n = r := by
  constructor
  · rw [Nat.mul_add_div hn, Nat.div_eq_of_lt hr]; omega
  · rw [Nat.mul_add_mod, Nat.mod_eq_of_lt hr]

theorem div_pred_iff (n u : Nat) (hn : 0 < n) :
    (1 ≤ u ∧ (u - 1) / n = u / n) ↔ u % n ≠ 0 := by
  obtain ⟨q, r, hr, rfl⟩ : ∃ q r, r < n ∧ u = n * q + r :=
    ⟨u / n, u % n, Nat.mod_lt _ hn, (Nat.div_add_mod u n).symm⟩
  obtain ⟨hdiv, hmod⟩ := div_mod_decomp n q r hn hr
  rw [hdiv, hmod]
  rcases Nat.eq_zero_or_pos r with rfl | hr1
  · constructor
    · rintro ⟨h1, h2⟩
      exfalso
      rcases Nat.eq_zero_or_pos q with rfl | hq1
      · omega
      · have : n * q + 0 - 1 = n * (q - 1) + (n - 1) := by
          have : n * q = n * (q - 1) + n := by
            have := Nat.succ_pred_eq_of_pos hq1
            calc n * q = n * ((q-1) + 1) := by rw [Nat.sub_add_cancel hq1]
            _ = n * (q - 1) + n := by ring
          omega
        rw [this, (div_mod_decomp n (q-1) (n-1) hn (by omega)).1] at h2
        omega
    · omega
  · have hdec : (n * q + r - 1) = n * q + (r - 1) := by omega
    rw [hdec, (div_mod_decomp n q (r-1) hn (by omega)).1]
    omega

theorem div_succ_iff (n u : Nat) (hn : 0 < n) :
    ((u + 1) / n = u / n) ↔ (u + 1) % n ≠ 0 := by
  obtain ⟨q, r, hr, rfl⟩ : ∃ q r, r < n ∧ u = n * q + r :=
    ⟨u / n, u % n, Nat.mod_lt _ hn, (Nat.div_add_mod u n).symm⟩
  obtain ⟨hdiv, hmod⟩ := div_mod_decomp n q r hn hr
  rw [hdiv]
  rcases Nat.lt_or_ge (r + 1) n with h1 | h1
  · have h2 : n * q + r + 1 = n * q + (r + 1) := by omega
    rw [h2, (div_mod_decomp n q (r+1) hn h1).1, (div_mod_decomp n q (r+1) hn h1).2]
    omega
  · have hr1 : r + 1 = n := by omega
    have h2 : n * q + r + 1 = n * (q + 1) + 0 := by
      have : n * (q + 1) = n * q + n := by ring
      omega
    rw [h2, (div_mod_decomp n (q+1) 0 hn hn).1, (div_mod_decomp n (q+1) 0 hn hn).2]
    omega

theorem initMatrix_getD_row (n u : Nat) (hu : u < n * n) :
    (initMatrix n).getD u [] = fillRow n (n * n) u := by
  simp [initMatrix, List.getD_eq_getElem?_getD, List.getElem?_map, List.getElem?_range, hu]

theorem initMatrix_getD_row_oob (n u : Nat) (hu : ¬ u < n * n) :
    (initMatrix n).getD u [] = [] := by
  rw [List.getD_eq_getElem?_getD,
    List.getElem?_eq_none (by simp only [initMatrix, List.length_map, List.length_range]; omega)]
  rfl

theorem fillRow_zero_or_one (n total u v : Nat) :
    (fillRow n total u).getD v 0 = 0 ∨ (fillRow n total u).getD v 0 = 1 := by
  have hite : ∀ (c : Prop) (inst : Decidable c) (a b : List Nat),
      (if c then a else b).getD v 0 = if c then a.getD v 0 else b.getD v 0 := by
    intro c inst a b; split <;> rfl
  simp only [fillRow, hite, getD_set, getD_replicate_zero]
  split_ifs <;> simp

/-- Entry formula for the constructed adjacency matrix: `1` at orthogonally
adjacent pairs (rows only exist for vertices of the grid), `0` elsewhere. -/
theorem mget_initMatrix_eq (n u v : Nat) (hn : 2 ≤ n) :
    mget (initMatrix n) u v = if u < n * n ∧ gridAdjacent n u v then 1 else 0 := by
  by_cases hu : u < n * n
  · rw [mget, initMatrix_getD_row n u hu]
    by_cases hadj : gridAdjacent n u v
    · rw [if_pos ⟨hu, hadj⟩]; exact (fillRow_one_iff n u v hn hu).mpr hadj
    · rw [if_neg (by tauto)]
      rcases fillRow_zero_or_one n (n*n) u v with h | h
      · exact h
      · exact absurd ((fillRow_one_iff n u v hn hu).mp h) hadj
  · rw [mget, initMatrix_getD_row_oob n u hu, if_neg (by tauto)]
    rfl

theorem gridAdjacent_swap (n u v : Nat) (hn : 2 ≤ n) (hu : u < n * n)
    (h : gridAdjacent n u v) : v < n * n ∧ gridAdjacent n v u := by
  have hn0 : 0 < n := by omega
  rcases h with ⟨h5, h6⟩ | ⟨h5, h6⟩ | h5 | ⟨h5, h6⟩
  · exact ⟨by omega, Or.inr (Or.inl ⟨h5, h6.symm⟩)⟩
  · subst h5
    have hlt : u + 1 < n * n := by
      have h7 : (u + 1) / n < n := by
        rw [h6]; exact (Nat.div_lt_iff_lt_mul hn0).mpr hu
      exact (Nat.div_lt_iff_lt_mul hn0).mp h7
    exact ⟨hlt, Or.inl ⟨rfl, h6.symm⟩⟩
  · exact ⟨by omega, Or.inr (Or.inr (Or.inr ⟨h5, hu⟩))⟩
  · exact ⟨h6, Or.inr (Or.inr (Or.inl h5))⟩

/-- The constructed matrix is symmetric. -/
theorem mget_initMatrix_symm (n u v : Nat) (hn : 2 ≤ n) :
    mget (initMatrix n) u v = mget (initMatrix n) v u := by
  rw [mget_initMatrix_eq n u v hn, mget_initMatrix_eq n v u hn]
  congr 1
  apply propext
  constructor
  · rintro ⟨hu, hadj⟩
    exact gridAdjacent_swap n u v hn hu hadj
  · rintro ⟨hv, hadj⟩
    exact gridAdjacent_swap n v u hn hv hadj

theorem deg_eq (n u : Nat) (hn : 2 ≤ n) (hu : u < n * n) :
    deg n u = (if u % n ≠ 0 then 1 else 0) + (if (u + 1) % n ≠ 0 then 1 else 0)
      + (if n ≤ u then 1 else 0) + (if u + n < n * n then 1 else 0) := by
  have hn0 : 0 < n := by omega
  have hfc : (Finset.range (n * n)).filter (fun v => mget (initMatrix n) u v = 1)
      = (Finset.range (n * n)).filter (fun v => gridAdjacent n u v) := by
    apply Finset.filter_congr
    intro v _
    rw [mget_initMatrix_eq n u v hn]
    constructor
    · intro h
      by_contra hadj
      rw [if_neg (by tauto)] at h
      exact absurd h (by omega)
    · intro hadj
      rw [if_pos ⟨hu, hadj⟩]
  have hsplit : (Finset.range (n * n)).filter (fun v => gridAdjacent n u v)
      = ((Finset.range (n * n)).filter (fun v => v + 1 = u ∧ v / n = u / n))
        ∪ (((Finset.range (n * n)).filter (fun v => u + 1 = v ∧ v / n = u / n))
        ∪ (((Finset.range (n * n)).filter (fun v => v + n = u))
        ∪ ((Finset.range (n * n)).filter (fun v => u + n = v ∧ v < n * n)))) := by
    simp only [gridAdjacent, Finset.filter_or]
  have hA : ((Finset.range (n * n)).filter (fun v => v + 1 = u ∧ v / n = u / n)).card
      = if u % n ≠ 0 then 1 else 0 := by
    by_cases hc : u % n ≠ 0
    · obtain ⟨h1, h2⟩ := (div_pred_iff n u hn0).mpr hc
      rw [if_pos hc]
      have hone : (Finset.range (n * n)).filter (fun v => v + 1 = u ∧ v / n = u / n)
          = {u - 1} := by
        apply Finset.ext
        intro v
        simp only [Finset.mem_filter, Finset.mem_range, Finset.mem_singleton]
        constructor
        · rintro ⟨_, h3, _⟩; omega
        · rintro rfl
          refine ⟨by omega, by omega, ?_⟩
          have h4 : u - 1 + 1 = u := by omega
          exact h2
      rw [hone, Finset.card_singleton]
    · rw [if_neg hc]
      push_neg at hc
      rw [Finset.card_eq_zero, Finset.filter_eq_empty_iff]
      rintro v _ ⟨h3, h4⟩
      have h5 : u - 1 = v := by omega
      exact absurd ((div_pred_iff n u hn0).mp ⟨by omega, by rw [h5]; exact h4⟩) (by omega)
  have hB : ((Finset.range (n * n)).filter (fun v => u + 1 = v ∧ v / n = u / n)).card
      = if (u + 1) % n ≠ 0 then 1 else 0 := by
    by_cases hc : (u + 1) % n ≠ 0
    · have h2 : (u + 1) / n = u / n := (div_succ_iff n u hn0).mpr hc
      have hlt : u + 1 < n * n := by
        have h7 : (u + 1) / n < n := by
          rw [h2]; exact (Nat.div_lt_iff_lt_mul hn0).mpr hu
        exact (Nat.div_lt_iff_lt_mul hn0).mp h7
      rw [if_pos hc]
      have hone : (Finset.range (n * n)).filter (fun v => u + 1 = v ∧ v / n = u / n)
          = {u + 1} := by
        apply Finset.ext
        intro v
        simp only [Finset.mem_filter, Finset.mem_range, Finset.mem_singleton]
        constructor
        · rintro ⟨_, h3, _⟩; omega
        · rintro rfl
          exact ⟨hlt, rfl, h2⟩
      rw [hone, Finset.card_singleton]
    · rw [if_neg hc]
      push_neg at hc
      rw [Finset.card_eq_zero, Finset.filter_eq_empty_iff]
      rintro v _ ⟨h3, h4⟩
      subst h3
      exact absurd ((div_succ_iff n u hn0).mp h4) (by omega)
  have hC : ((Finset.range (n * n)).filter (fun v => v + n = u)).card
      = if n ≤ u then 1 else 0 := by
    by_cases hc : n ≤ u
    · rw [if_pos hc]
      have hone : (Finset.range (n * n)).filter (fun v => v + n = u) = {u - n} := by
        apply Finset.ext
        intro v
        simp only [Finset.mem_filter, Finset.mem_range, Finset.mem_singleton]
        omega
      rw [hone, Finset.card_singleton]
    · rw [if_neg hc]
      rw [Finset.card_eq_zero, Finset.filter_eq_empty_iff]
      intro v _
      omega
  have hD : ((Finset.range (n * n)).filter (fun v => u + n = v ∧ v < n * n)).card
      = if u + n < n * n then 1 else 0 := by
    by_cases hc : u + n < n * n
    · rw [if_pos hc]
      have hone : (Finset.range (n * n)).filter (fun v => u + n = v ∧ v < n * n)
          = {u + n} := by
        apply Finset.ext
        intro v
        simp only [Finset.mem_filter, Finset.mem_range, Finset.mem_singleton]
        omega
      rw [hone, Finset.card_singleton]
    · rw [if_neg hc]
      rw [Finset.card_eq_zero, Finset.filter_eq_empty_iff]
      intro v _
      omega
  have hd1 : Disjoint ((Finset.range (n * n)).filter (fun v => v + 1 = u ∧ v / n = u / n))
      (((Finset.range (n * n)).filter (fun v => u + 1 = v ∧ v / n = u / n))
        ∪ (((Finset.range (n * n)).filter (fun v => v + n = u))
        ∪ ((Finset.range (n * n)).filter (fun v => u + n = v ∧ v < n * n)))) := by
    rw [Finset.disjoint_left]
    intro v hv hv'
    simp only [Finset.mem_filter, Finset.mem_union, Finset.mem_range] at hv hv'
    omega
  have hd2 : Disjoint ((Finset.range (n * n)).filter (fun v => u + 1 = v ∧ v / n = u / n))
      (((Finset.range (n * n)).filter (fun v => v + n = u))
        ∪ ((Finset.range (n * n)).filter (fun v => u + n = v ∧ v < n * n))) := by
    rw [Finset.disjoint_left]
    intro v hv hv'
    simp only [Finset.mem_filter, Finset.mem_union, Finset.mem_range] at hv hv'
    omega
  have hd3 : Disjoint ((Finset.range (n * n)).filter (fun v => v + n = u))
      ((Finset.range (n * n)).filter (fun v => u + n = v ∧ v < n * n)) := by
    rw [Finset.disjoint_left]
    intro v hv hv'
    simp only [Finset.mem_filter, Finset.mem_range] at hv hv'
    omega
  rw [deg, hfc, hsplit, Finset.card_union_of_disjoint hd1,
    Finset.card_union_of_disjoint hd2, Finset.card_union_of_disjoint hd3, hA, hB, hC, hD]
  omega

/-- Every grid vertex has degree 2, 3 or 4. -/
theorem deg_mem (n u : Nat) (hn : 2 ≤ n) (hu : u < n * n) :
    deg n u = 2 ∨ deg n u = 3 ∨ deg n u = 4 := by
  have hn0 : 0 < n := by omega
  have key1 : ¬(u % n = 0 ∧ (u + 1) % n = 0) := by
    rintro ⟨h1, h2⟩
    have d1 : n ∣ u := Nat.dvd_of_mod_eq_zero h1
    have d2 : n ∣ u + 1 := Nat.dvd_of_mod_eq_zero h2
    have d3 : n ∣ 1 := by
      have h4 := Nat.dvd_sub' d2 d1
      simpa using h4
    have d4 := Nat.le_of_dvd (by omega) d3
    omega
  have key2 : u < n → u + n < n * n := by
    intro h
    have h2 : 2 * n ≤ n * n := Nat.mul_le_mul_right n hn
    omega
  rw [deg_eq n u hn hu]
  split_ifs with h1 h2 h3 h4 <;> omega

theorem sum_range_sq (n : Nat) (f : Nat → Nat) (hn : 0 < n) :
    ∑ u ∈ Finset.range (n * n), f u
      = ∑ q ∈ Finset.range n, ∑ r ∈ Finset.range n, f (n * q + r) := by
  rw [← Finset.sum_product']
  refine Finset.sum_nbij' (fun u => (u / n, u % n)) (fun p => n * p.1 + p.2)
    ?_ ?_ ?_ ?_ ?_
  · intro u hu
    rw [Finset.mem_range] at hu
    rw [Finset.mem_product, Finset.mem_range, Finset.mem_range]
    exact ⟨(Nat.div_lt_iff_lt_mul hn).mpr hu, Nat.mod_lt _ hn⟩
  · intro p hp
    rw [Finset.mem_product, Finset.mem_range, Finset.mem_range] at hp
    rw [Finset.mem_range]
    calc n * p.1 + p.2 < n * (p.1 + 1) := by
          have : n * (p.1 + 1) = n * p.1 + n := by ring
          omega
    _ ≤ n * n := Nat.mul_le_mul_left n (by omega)
  · intro u _
    exact Nat.div_add_mod u n
  · intro p hp
    rw [Finset.mem_product, Finset.mem_range, Finset.mem_range] at hp
    obtain ⟨h1, h2⟩ := div_mod_decomp n p.1 p.2 hn hp.2
    show ((n * p.1 + p.2) / n, (n * p.1 + p.2) % n) = p
    rw [h1, h2]
  · intro u _
    rw [Nat.div_add_mod u n]

theorem sum_indicator_ne (n b : Nat) (hb : b < n) :
    ∑ r ∈ Finset.range n, (if r ≠ b then 1 else 0) = n - 1 := by
  rw [← Finset.card_filter, Finset.filter_ne', Finset.card_erase_of_mem
    (Finset.mem_range.mpr hb), Finset.card_range]

/-- The matrix contains `2 * (2n(n-1))` one-entries: `2n(n-1)` undirected
grid edges, each counted twice. -/
theorem initMatrix_count (n : Nat) (hn : 2 ≤ n) :
    (((Finset.range (n * n)) ×ˢ (Finset.range (n * n))).filter
      (fun p => mget (initMatrix n) p.1 p.2 = 1)).card = 2 * (2 * n * (n - 1)) := by
  have hn0 : 0 < n := by omega
  rw [Finset.card_filter, Finset.sum_product]
  have hdeg : ∀ u ∈ Finset.range (n * n),
      (∑ v ∈ Finset.range (n * n), if mget (initMatrix n) u v = 1 then 1 else 0)
        = (if u % n ≠ 0 then 1 else 0) + (if (u + 1) % n ≠ 0 then 1 else 0)
          + (if n ≤ u then 1 else 0) + (if u + n < n * n then 1 else 0) := by
    intro u hu
    rw [← Finset.card_filter]
    exact deg_eq n u hn (Finset.mem_range.mp hu)
  rw [Finset.sum_congr rfl hdeg, Finset.sum_add_distrib, Finset.sum_add_distrib,
    Finset.sum_add_distrib]
  have hSA : ∑ u ∈ Finset.range (n * n), (if u % n ≠ 0 then 1 else 0) = n * (n - 1) := by
    rw [sum_range_sq n _ hn0]
    have h1 : ∀ q ∈ Finset.range n,
        (∑ r ∈ Finset.range n, if (n * q + r) % n ≠ 0 then 1 else 0) = n - 1 := by
      intro q _
      have h2 : ∀ r ∈ Finset.range n,
          (if (n * q + r) % n ≠ 0 then 1 else 0) = if r ≠ 0 then 1 else 0 := by
        intro r hr
        rw [(div_mod_decomp n q r hn0 (Finset.mem_range.mp hr)).2]
      rw [Finset.sum_congr rfl h2, sum_indicator_ne n 0 hn0]
    rw [Finset.sum_congr rfl h1, Finset.sum_const, Finset.card_range, smul_eq_mul]
  have hSB : ∑ u ∈ Finset.range (n * n), (if (u + 1) % n ≠ 0 then 1 else 0)
      = n * (n - 1) := by
    rw [sum_range_sq n _ hn0]
    have h1 : ∀ q ∈ Finset.range n,
        (∑ r ∈ Finset.range n, if (n * q + r + 1) % n ≠ 0 then 1 else 0) = n - 1 := by
      intro q _
      have h2 : ∀ r ∈ Finset.range n,
          (if (n * q + r + 1) % n ≠ 0 then 1 else 0) = if r ≠ n - 1 then 1 else 0 := by
        intro r hr
        rw [Finset.mem_range] at hr
        rcases Nat.lt_or_ge (r + 1) n with h3 | h3
        · have h4 : n * q + r + 1 = n * q + (r + 1) := by omega
          rw [h4, (div_mod_decomp n q (r + 1) hn0 h3).2,
            if_pos (by omega), if_pos (by omega)]
        · have h4 : n * q + r + 1 = n * (q + 1) + 0 := by
            have h5 : n * (q + 1) = n * q + n := by ring
            omega
          rw [h4, (div_mod_decomp n (q + 1) 0 hn0 hn0).2,
            if_neg (by omega), if_neg (by omega)]
      rw [Finset.sum_congr rfl h2, sum_indicator_ne n (n - 1) (by omega)]
    rw [Finset.sum_congr rfl h1, Finset.sum_const, Finset.card_range, smul_eq_mul]
  have hSC : ∑ u ∈ Finset.range (n * n), (if n ≤ u then 1 else 0) = n * (n - 1) := by
    rw [sum_range_sq n _ hn0]
    have h1 : ∀ q ∈ Finset.range n,
        (∑ r ∈ Finset.range n, if n ≤ n * q + r then 1 else 0)
          = if 1 ≤ q then n else 0 := by
      intro q _
      rcases Nat.eq_zero_or_pos q with rfl | hq1
      · have h2 : ∀ r ∈ Finset.range n, (if n ≤ n * 0 + r then 1 else 0) = 0 := by
          intro r hr
          rw [Finset.mem_range] at hr
          rw [if_neg (by omega)]
        rw [Finset.sum_congr rfl h2, Finset.sum_const, smul_zero, if_neg (by omega)]
      · have h2 : ∀ r ∈ Finset.range n, (if n ≤ n * q + r then 1 else 0) = 1 := by
          intro r _
          have h3 : n ≤ n * q := by
            calc n = n * 1 := (mul_one n).symm
            _ ≤ n * q := Nat.mul_le_mul_left n hq1
          rw [if_pos (by omega)]
        rw [Finset.sum_congr rfl h2, Finset.sum_const, Finset.card_range, smul_eq_mul,
          mul_one, if_pos (show 1 ≤ q by omega)]
    rw [Finset.sum_congr rfl h1]
    have h6 : ∀ q ∈ Finset.range n, (if 1 ≤ q then n else 0) = n * (if q ≠ 0 then 1 else 0) := by
      intro q _
      split_ifs <;> omega
    rw [Finset.sum_congr rfl h6, ← Finset.mul_sum, sum_indicator_ne n 0 hn0]
  have hSD : ∑ u ∈ Finset.range (n * n), (if u + n < n * n then 1 else 0)
      = n * (n - 1) := by
    rw [sum_range_sq n _ hn0]
    have h1 : ∀ q ∈ Finset.range n,
        (∑ r ∈ Finset.range n, if n * q + r + n < n * n then 1 else 0)
          = if q + 1 < n then n else 0 := by
      intro q hq
      rw [Finset.mem_range] at hq
      rcases Nat.lt_or_ge (q + 1) n with hq1 | hq1
      · have h2 : ∀ r ∈ Finset.range n, (if n * q + r + n < n * n then 1 else 0) = 1 := by
          intro r hr
          rw [Finset.mem_range] at hr
          have h3 : n * (q + 2) ≤ n * n := Nat.mul_le_mul_left n (by omega)
          have h4 : n * (q + 2) = n * q + n + n := by ring
          rw [if_pos (by omega)]
        rw [Finset.sum_congr rfl h2, Finset.sum_const, Finset.card_range, smul_eq_mul,
          mul_one, if_pos hq1]
      · have h2 : ∀ r ∈ Finset.range n, (if n * q + r + n < n * n then 1 else 0) = 0 := by
          intro r _
          have h3 : n * n ≤ n * (q + 1) := Nat.mul_le_mul_left n hq1
          have h4 : n * (q + 1) = n * q + n := by ring
          rw [if_neg (by omega)]
        rw [Finset.sum_congr rfl h2, Finset.sum_const, smul_zero, if_neg (by omega)]
    rw [Finset.sum_congr rfl h1]
    have h6 : ∀ q ∈ Finset.range n,
        (if q + 1 < n then n else 0) = n * (if q ≠ n - 1 then 1 else 0) := by
      intro q hq
      rw [Finset.mem_range] at hq
      split_ifs <;> omega
    rw [Finset.sum_congr rfl h6, ← Finset.mul_sum, sum_indicator_ne n (n - 1) (by omega)]
  rw [hSA, hSB, hSC, hSD]
  ring

theorem mem_availableList (total : Nat) (matrix : List (List Nat)) (visited : List Nat)
    (p : Nat × Nat) :
    p ∈ availableList total matrix visited ↔
      p.2 ∈ visited ∧ p.1 < total ∧ mget matrix p.1 p.2 = 1 := by
  simp only [availableList, List.mem_flatMap, List.mem_map, List.mem_filter, List.mem_range,
    beq_iff_eq]
  constructor
  · rintro ⟨c, hc, r, ⟨hr, hm⟩, rfl⟩
    exact ⟨hc, hr, hm⟩
  · rintro ⟨h2, h1, hm⟩
    exact ⟨p.2, h2, p.1, ⟨h1, hm⟩, rfl⟩

theorem edgeChain_append (total : Nat) (es : List (Nat × Nat)) (vs : List Nat) (e : Nat × Nat)
    (h : edgeChain total vs es) (h2 : e.2 ∈ vs ++ es.map Prod.fst)
    (h1 : e.1 ∉ vs ++ es.map Prod.fst) (hlt : e.1 < total) :
    edgeChain total vs (es ++ [e]) := by
  induction es generalizing vs with
  | nil =>
    simp only [List.map_nil, List.append_nil] at h2 h1
    exact ⟨h2, h1, hlt, trivial⟩
  | cons e' es ih =>
    obtain ⟨ha, hb, hc, hd⟩ := h
    refine ⟨ha, hb, hc, ih (vs ++ [e'.1]) hd ?_ ?_⟩
    · simp only [List.map_cons, List.mem_append, List.mem_cons, List.mem_singleton] at h2 ⊢
      tauto
    · simp only [List.map_cons, List.mem_append, List.mem_cons, List.mem_singleton] at h1 ⊢
      tauto

theorem exists_unvisited_adjacent (n : Nat) (hn : 2 ≤ n) (visited : List Nat)
    (hv0 : 0 ∈ visited) (hbnd : ∀ v ∈ visited, v < n * n) (hnd : visited.Nodup)
    (hlen : visited.length < n * n) :
    ∃ w w', w < n * n ∧ w ∉ visited ∧ w' ∈ visited ∧ gridAdjacent n w w' := by
  have hex : ∃ v, v < n * n ∧ v ∉ visited := by
    by_contra hall
    push_neg at hall
    have hsub : Finset.range (n * n) ⊆ visited.toFinset := by
      intro v hv
      rw [List.mem_toFinset]
      exact hall v (Finset.mem_range.mp hv)
    have hcard := Finset.card_le_card hsub
    rw [Finset.card_range, List.toFinset_card_of_nodup hnd] at hcard
    omega
  obtain ⟨hw1, hw2⟩ := Nat.find_spec hex
  set w := Nat.find hex with hwdef
  have hmin : ∀ m, m < w → m < n * n → m ∈ visited := by
    intro m hm hmn
    have h3 := Nat.find_min hex hm
    push_neg at h3
    exact h3 hmn
  have hw0 : w ≠ 0 := fun h => hw2 (h ▸ hv0)
  by_cases hmod : w % n ≠ 0
  · obtain ⟨hw1', hdiv⟩ := (div_pred_iff n w (by omega)).mpr hmod
    refine ⟨w, w - 1, hw1, hw2, hmin (w - 1) (by omega) (by omega), ?_⟩
    exact Or.inl ⟨by omega, hdiv⟩
  · push_neg at hmod
    have hwn : n ≤ w := Nat.le_of_dvd (by omega) (Nat.dvd_of_mod_eq_zero hmod)
    exact ⟨w, w - n, hw1, hw2, hmin (w - n) (by omega) (by omega),
      Or.inr (Or.inr (Or.inl (by omega)))⟩

theorem primStep_inv (n : Nat) (hn : 2 ≤ n) (pick : Nat) (s : PrimState)
    (hI : Inv n s) (hlen : s.visited_vertices.length < n * n) :
    ∃ s', primStep (n * n) pick s = some s' ∧ Inv n s' ∧
      s'.visited_vertices.length = s.visited_vertices.length + 1 := by
  obtain ⟨hvis, hbnd, hnd, hchain, hmlen, hrows⟩ := hI
  have hmget : ∀ r c, r < n * n →
      (mget s.matrix r c = 1 ↔ (r ∉ s.visited_vertices ∧ gridAdjacent n r c)) := by
    intro r c hr
    rw [mget, hrows r hr]
    by_cases hrv : r ∈ s.visited_vertices
    · rw [if_pos hrv, getD_replicate_zero]
      constructor
      · intro h; omega
      · intro h; exact absurd hrv h.1
    · rw [if_neg hrv, fillRow_one_iff n r c hn hr]
      exact ⟨fun h => ⟨hrv, h⟩, fun h => h.2⟩
  have h0vis : 0 ∈ s.visited_vertices := by
    rw [hvis]; exact List.mem_cons_self 0 _
  obtain ⟨w, w', hw1, hw2, hw3, hw4⟩ :=
    exists_unvisited_adjacent n hn s.visited_vertices h0vis hbnd hnd hlen
  have hmem : (w, w') ∈ availableList (n * n) s.matrix s.visited_vertices := by
    rw [mem_availableList]
    exact ⟨hw3, hw1, (hmget w w' hw1).mpr ⟨hw2, hw4⟩⟩
  set avail := availableList (n * n) s.matrix s.visited_vertices with havail
  have hne : avail ≠ [] := List.ne_nil_of_mem hmem
  have hlp : 0 < avail.length := List.length_pos.mpr hne
  have hidx : pick % avail.length < avail.length := Nat.mod_lt _ hlp
  have hgetd : avail.getD (pick % avail.length) (0, 0) = avail[pick % avail.length] := by
    rw [List.getD_eq_getElem?_getD, List.getElem?_eq_getElem hidx]
    rfl
  set e := avail.getD (pick % avail.length) (0, 0) with hedef
  have hemem : e ∈ avail := by
    rw [hgetd]
    exact List.getElem_mem hidx
  obtain ⟨he2, he1lt, hemget⟩ := (mem_availableList _ _ _ e).mp (havail ▸ hemem)
  have he1 : e.1 ∉ s.visited_vertices := ((hmget e.1 e.2 he1lt).mp hemget).1
  have headj : gridAdjacent n e.1 e.2 := ((hmget e.1 e.2 he1lt).mp hemget).2
  have hne2 : ¬((availableList (n * n) s.matrix s.visited_vertices).isEmpty = true) := by
    rw [← havail, List.isEmpty_iff]
    exact hne
  refine ⟨⟨s.matrix.set e.1 (List.replicate (n * n) 0),
          s.visited_vertices ++ [e.1], s.edge_list ++ [e]⟩, ?_, ?_, ?_⟩
  · simp only [primStep]
    rw [if_neg hne2]
  · refine ⟨?_, ?_, ?_, ?_, ?_, ?_⟩
    · show s.visited_vertices ++ [e.1] = 0 :: (s.edge_list ++ [e]).map Prod.fst
      rw [List.map_append, hvis]
      rfl
    · intro v hv
      rw [List.mem_append, List.mem_singleton] at hv
      rcases hv with hv | rfl
      · exact hbnd v hv
      · exact he1lt
    · show (s.visited_vertices ++ [e.1]).Nodup
      rw [List.nodup_append]
      exact ⟨hnd, List.nodup_singleton _, by
        intro a ha hae
        rw [List.mem_singleton] at hae
        exact he1 (hae ▸ ha)⟩
    · show edgeChain (n * n) [0] (s.edge_list ++ [e])
      apply edgeChain_append (n * n) s.edge_list [0] e hchain
      · show e.2 ∈ [0] ++ s.edge_list.map Prod.fst
        rw [List.singleton_append, ← hvis]
        exact he2
      · show e.1 ∉ [0] ++ s.edge_list.map Prod.fst
        rw [List.singleton_append, ← hvis]
        exact he1
      · exact he1lt
    · show (s.matrix.set e.1 (List.replicate (n * n) 0)).length = n * n
      rw [List.length_set]
      exact hmlen
    · intro r hr
      show (s.matrix.set e.1 (List.replicate (n * n) 0)).getD r [] = _
      rw [getD_set]
      by_cases hre : r = e.1
      · subst hre
        rw [if_pos ⟨rfl, by omega⟩, if_pos (by
          rw [List.mem_append, List.mem_singleton]
          exact Or.inr rfl)]
      · rw [if_neg (by tauto), hrows r hr]
        have hiff : (r ∈ s.visited_vertices ++ [e.1]) ↔ r ∈ s.visited_vertices := by
          rw [List.mem_append, List.mem_singleton]
          tauto
        rw [if_congr hiff rfl rfl]
  · show (s.visited_vertices ++ [e.1]).length = s.visited_vertices.length + 1
    rw [List.length_append, List.length_singleton]

theorem primIter_inv (n : Nat) (hn : 2 ≤ n) (k : Nat) :
    ∀ (pick : Nat → Nat) (s : PrimState), Inv n s →
      s.visited_vertices.length + k = n * n →
      ∃ s', primIter (n * n) pick k s = some s' ∧ Inv n s' ∧
        s'.visited_vertices.length = n * n := by
  induction k with
  | zero =>
    intro pick s hI hk
    exact ⟨s, rfl, hI, by omega⟩
  | succ k ih =>
    intro pick s hI hk
    obtain ⟨s'', hstep, hI'', hlen''⟩ := primStep_inv n hn (pick 0) s hI (by omega)
    obtain ⟨s', hiter, hI', hlen'⟩ := ih (fun i => pick (i + 1)) s'' hI'' (by omega)
    refine ⟨s', ?_, hI', hlen'⟩
    rw [primIter, hstep, Option.some_bind]
    exact hiter

theorem initState_inv (n : Nat) (hn : 2 ≤ n) : Inv n (initState n) := by
  have hvv : (initState n).visited_vertices = [0] := rfl
  refine ⟨rfl, ?_, List.nodup_singleton _, trivial, ?_, ?_⟩
  · intro v hv
    rw [hvv, List.mem_singleton] at hv
    subst hv
    have : 2 * 2 ≤ n * n := Nat.mul_le_mul hn hn
    omega
  · show ((initMatrix n).set 0 (List.replicate (n * n) 0)).length = n * n
    rw [List.length_set, initMatrix, List.length_map, List.length_range]
  · intro r hr
    show ((initMatrix n).set 0 (List.replicate (n * n) 0)).getD r [] = _
    rw [getD_set]
    by_cases hr0 : r = 0
    · subst hr0
      rw [if_pos ⟨rfl, by
          rw [initMatrix, List.length_map, List.length_range]
          have h4 : 2 * 2 ≤ n * n := Nat.mul_le_mul hn hn
          omega⟩,
        if_pos (by rw [hvv, List.mem_singleton])]
    · rw [if_neg (by tauto), if_neg (by
        rw [hvv, List.mem_singleton]
        exact hr0)]
      exact initMatrix_getD_row n r hr

/-- Every run of `random_prims` (any oracle) succeeds and ends in a state
satisfying the invariant with all `n*n` vertices visited. -/
theorem random_prims_total (n : Nat) (hn : 2 ≤ n) (pick : Nat → Nat) :
    ∃ s, random_prims n pick = some s ∧ Inv n s ∧
      s.visited_vertices.length = n * n := by
  have h4 : 2 * 2 ≤ n * n := Nat.mul_le_mul hn hn
  exact primIter_inv n hn (n * n - 1) pick (initState n) (initState_inv n hn) (by
    show (1 : Nat) + (n * n - 1) = n * n
    omega)

theorem natGraph_nil : natGraph [] = ⊥ := by
  ext a b
  simp [natGraph, SimpleGraph.fromRel_adj]

theorem natGraph_append_edge (E : List (Nat × Nat)) (e : Nat × Nat) :
    natGraph (E ++ [e]) = natGraph E ⊔ SimpleGraph.edge e.1 e.2 := by
  ext a b
  simp only [natGraph, SimpleGraph.fromRel_adj, SimpleGraph.sup_adj, SimpleGraph.edge_adj,
    List.mem_append, List.mem_singleton, Prod.ext_iff]
  tauto

theorem exists_edge_into_end {G : SimpleGraph Nat} {a b : Nat} (q : G.Walk a b)
    (h : ¬ q.Nil) : ∃ x, s(x, b) ∈ q.edges ∧ G.Adj x b := by
  induction q with
  | nil => exact absurd SimpleGraph.Walk.Nil.nil h
  | cons hadj rest ih =>
    by_cases hrest : rest.Nil
    · have hcb := hrest.eq
      subst hcb
      exact ⟨_, by simp, hadj⟩
    · obtain ⟨x, hx1, hx2⟩ := ih hrest
      exact ⟨x, by simp [hx1], hx2⟩

/-- Adding an edge at a vertex isolated in `G` cannot create a cycle. -/
theorem isAcyclic_sup_edge {G : SimpleGraph Nat} {f t : Nat} (hft : f ≠ t)
    (hiso : ∀ u, ¬ G.Adj f u) (hG : G.IsAcyclic) :
    (G ⊔ SimpleGraph.edge f t).IsAcyclic := by
  intro v c hc
  by_cases hf : f ∈ c.support
  · have hc2 := hc.rotate hf
    cases hrot : c.rotate hf with
    | nil =>
      rw [hrot] at hc2
      exact SimpleGraph.Walk.IsCycle.not_of_nil hc2
    | cons hadj q =>
      rw [hrot] at hc2
      rename_i w
      have hw : w = t := by
        rcases (SimpleGraph.sup_adj _ _ _ _).mp hadj with h | h
        · exact absurd h (hiso w)
        · rcases (SimpleGraph.edge_adj _ _ _ _).mp h with ⟨⟨_, h2⟩ | ⟨h1, _⟩, _⟩
          · exact h2
          · exact absurd h1 hft
      have hqn : ¬ q.Nil := SimpleGraph.Walk.not_nil_of_ne (by rw [hw]; exact Ne.symm hft)
      obtain ⟨x, hx1, hx2⟩ := exists_edge_into_end q hqn
      have hxt : x = t := by
        rcases (SimpleGraph.sup_adj _ _ _ _).mp hx2 with h | h
        · exact absurd h.symm (hiso x)
        · rcases (SimpleGraph.edge_adj _ _ _ _).mp h with ⟨⟨_, h2⟩ | ⟨h1, _⟩, _⟩
          · exact absurd h2 hft
          · exact h1
      have hmem : s(f, w) ∈ q.edges := by
        have hxw : x = w := hxt.trans hw.symm
        rw [hxw] at hx1
        rwa [Sym2.eq_swap] at hx1
      have hnd := hc2.toIsCircuit.toIsTrail.edges_nodup
      rw [SimpleGraph.Walk.edges_cons] at hnd
      exact absurd hmem (List.nodup_cons.mp hnd).1
  · have hsub : ∀ e ∈ c.edges, e ∈ G.edgeSet := by
      intro e he
      induction e using Sym2.ind with
      | _ x y =>
        have hadj := c.adj_of_mem_edges he
        have hx : x ∈ c.support := c.fst_mem_support_of_mem_edges he
        have hy : y ∈ c.support := c.snd_mem_support_of_mem_edges he
        rcases (SimpleGraph.sup_adj _ _ _ _).mp hadj with h | h
        · exact h
        · exfalso
          rcases (SimpleGraph.edge_adj _ _ _ _).mp h with ⟨⟨h1, _⟩ | ⟨_, h2⟩, _⟩
          · exact hf (h1 ▸ hx)
          · exact hf (h2 ▸ hy)
    exact hG (c.transfer G hsub) (hc.transfer hsub)

theorem edgeChain_decomp (total : Nat) (es : List (Nat × Nat)) (e : Nat × Nat) :
    ∀ vs, edgeChain total vs (es ++ [e]) →
      edgeChain total vs es ∧ e.2 ∈ vs ++ es.map Prod.fst ∧
        e.1 ∉ vs ++ es.map Prod.fst := by
  induction es with
  | nil =>
    intro vs h
    obtain ⟨h1, h2, _, _⟩ := h
    exact ⟨trivial, by simpa using h1, by simpa using h2⟩
  | cons e' es ih =>
    intro vs h
    obtain ⟨h1, h2, h3, h4⟩ := h
    obtain ⟨h5, h6, h7⟩ := ih (vs ++ [e'.1]) h4
    refine ⟨⟨h1, h2, h3, h5⟩, ?_, ?_⟩
    · simp only [List.map_cons, List.mem_append, List.mem_cons, List.mem_singleton] at h6 ⊢
      tauto
    · simp only [List.map_cons, List.mem_append, List.mem_cons, List.mem_singleton] at h7 ⊢
      tauto

theorem edgeChain_mem_bounds (total : Nat) (es : List (Nat × Nat)) :
    ∀ vs, edgeChain total vs es → ∀ e ∈ es,
      e.1 ∈ vs ++ es.map Prod.fst ∧ e.2 ∈ vs ++ es.map Prod.fst := by
  induction es with
  | nil =>
    intro vs _ e he
    exact absurd he (List.not_mem_nil e)
  | cons e' es ih =>
    intro vs h e he
    obtain ⟨h1, h2, h3, h4⟩ := h
    rcases List.mem_cons.mp he with rfl | he'
    · constructor
      · simp
      · simp only [List.map_cons, List.mem_append, List.mem_cons]
        exact Or.inl h1
    · obtain ⟨ha, hb⟩ := ih (vs ++ [e'.1]) h4 e he'
      constructor
      · simp only [List.map_cons, List.mem_append, List.mem_cons,
          List.mem_singleton] at ha ⊢
        tauto
      · simp only [List.map_cons, List.mem_append, List.mem_cons,
          List.mem_singleton] at hb ⊢
        tauto

theorem edgeChain_acyclic (total : Nat) (es : List (Nat × Nat)) :
    ∀ vs, edgeChain total vs es → (natGraph es).IsAcyclic := by
  induction es using List.reverseRecOn with
  | nil =>
    intro vs _
    rw [natGraph_nil]
    exact SimpleGraph.isAcyclic_bot
  | append_singleton es e ih =>
    intro vs h
    obtain ⟨h1, h2, h3⟩ := edgeChain_decomp total es e vs h
    rw [natGraph_append_edge]
    apply isAcyclic_sup_edge
    · intro hEq
      rw [hEq] at h3
      exact h3 h2
    · intro u hadj
      rw [natGraph, SimpleGraph.fromRel_adj] at hadj
      obtain ⟨_, hor⟩ := hadj
      rcases hor with hm | hm
      · exact h3 (by
          rw [List.mem_append]
          exact Or.inr (List.mem_map.mpr ⟨(e.1, u), hm, rfl⟩))
      · exact h3 (edgeChain_mem_bounds total es vs h1 (u, e.1) hm).2
    · exact ih vs h1

theorem edgeChain_reachable (total : Nat) (E : List (Nat × Nat)) (z : Fin total)
    (es : List (Nat × Nat)) :
    ∀ vs, edgeChain total vs es → (∀ e ∈ es, e ∈ E) → (∀ v ∈ vs, v < total) →
    (∀ v, v ∈ vs → ∀ (h : v < total), (mazeGraph total E).Reachable ⟨v, h⟩ z) →
    ∀ u, u ∈ vs ++ es.map Prod.fst → ∀ (h : u < total),
      (mazeGraph total E).Reachable ⟨u, h⟩ z := by
  induction es with
  | nil =>
    intro vs _ _ _ hz u hu h
    rw [List.map_nil, List.append_nil] at hu
    exact hz u hu h
  | cons e es ih =>
    intro vs hch hsub hbnd hz u hu h
    obtain ⟨h1, h2, h3, h4⟩ := hch
    have hz' : ∀ v, v ∈ vs ++ [e.1] → ∀ (hv : v < total),
        (mazeGraph total E).Reachable ⟨v, hv⟩ z := by
      intro v hv hvlt
      rcases List.mem_append.mp hv with hv' | hv'
      · exact hz v hv' hvlt
      · rw [List.mem_singleton] at hv'
        subst hv'
        have he2lt : e.2 < total := hbnd e.2 h1
        have hadj : (mazeGraph total E).Adj ⟨e.1, hvlt⟩ ⟨e.2, he2lt⟩ := by
          show (natGraph E).Adj e.1 e.2
          rw [natGraph, SimpleGraph.fromRel_adj]
          exact ⟨fun hEq => h2 (hEq ▸ h1), Or.inl (hsub e (List.mem_cons_self e es))⟩
        exact hadj.reachable.trans (hz e.2 h1 he2lt)
    have hbnd' : ∀ v ∈ vs ++ [e.1], v < total := by
      intro v hv
      rcases List.mem_append.mp hv with hv' | hv'
      · exact hbnd v hv'
      · rw [List.mem_singleton] at hv'
        omega
    have hsub' : ∀ e' ∈ es, e' ∈ E := fun e' he' => hsub e' (List.mem_cons_of_mem e he')
    have hu' : u ∈ (vs ++ [e.1]) ++ es.map Prod.fst := by
      simp only [List.map_cons, List.mem_append, List.mem_cons, List.mem_singleton] at hu ⊢
      tauto
    exact ih (vs ++ [e.1]) h4 hsub' hbnd' hz' u hu' h

theorem covers_all (visited : List Nat) (t : Nat) (hnd : visited.Nodup)
    (hbnd : ∀ v ∈ visited, v < t) (hlen : visited.length = t) :
    ∀ v, v < t → v ∈ visited := by
  intro v hv
  have hsub : visited.toFinset ⊆ Finset.range t := by
    intro x hx
    rw [List.mem_toFinset] at hx
    exact Finset.mem_range.mpr (hbnd x hx)
  have hcard : (Finset.range t).card ≤ visited.toFinset.card := by
    rw [Finset.card_range, List.toFinset_card_of_nodup hnd, hlen]
  have heq := Finset.eq_of_subset_of_card_le hsub hcard
  rw [← List.mem_toFinset, heq]
  exact Finset.mem_range.mpr hv

theorem Inv_mget (n : Nat) (hn : 2 ≤ n) (s : PrimState) (hI : Inv n s) :
    ∀ r c, r < n * n →
      (mget s.matrix r c = 1 ↔ (r ∉ s.visited_vertices ∧ gridAdjacent n r c)) := by
  obtain ⟨_, _, _, _, _, hrows⟩ := hI
  intro r c hr
  rw [mget, hrows r hr]
  by_cases hrv : r ∈ s.visited_vertices
  · rw [if_pos hrv, getD_replicate_zero]
    constructor
    · intro h; omega
    · intro h; exact absurd hrv h.1
  · rw [if_neg hrv, fillRow_one_iff n r c hn hr]
    exact ⟨fun h => ⟨hrv, h⟩, fun h => h.2⟩

/-- While some vertex is unvisited, the enumerated candidate list is
non-empty: the least unvisited vertex is adjacent to a smaller (hence
visited) one, and its matrix row is still intact. -/
theorem availableList_ne_nil (n : Nat) (hn : 2 ≤ n) (s : PrimState) (hI : Inv n s)
    (hlen : s.visited_vertices.length < n * n) :
    availableList (n * n) s.matrix s.visited_vertices ≠ [] := by
  have hvis := hI.1
  have hbnd := hI.2.1
  have hnd := hI.2.2.1
  have h0vis : 0 ∈ s.visited_vertices := by
    rw [hvis]; exact List.mem_cons_self 0 _
  obtain ⟨w, w', hw1, hw2, hw3, hw4⟩ :=
    exists_unvisited_adjacent n hn s.visited_vertices h0vis hbnd hnd hlen
  have hmem : (w, w') ∈ availableList (n * n) s.matrix s.visited_vertices := by
    rw [mem_availableList]
    exact ⟨hw3, hw1, (Inv_mget n hn s hI w w' hw1).mpr ⟨hw2, hw4⟩⟩
  exact List.ne_nil_of_mem hmem

theorem primIter_upto (n : Nat) (hn : 2 ≤ n) (k : Nat) :
    ∀ (pick : Nat → Nat) (s : PrimState), Inv n s →
      s.visited_vertices.length + k ≤ n * n →
      ∃ s', primIter (n * n) pick k s = some s' ∧ Inv n s' ∧
        s'.visited_vertices.length = s.visited_vertices.length + k := by
  induction k with
  | zero =>
    intro pick s hI _
    exact ⟨s, rfl, hI, rfl⟩
  | succ k ih =>
    intro pick s hI hk
    obtain ⟨s'', hstep, hI'', hlen''⟩ := primStep_inv n hn (pick 0) s hI (by omega)
    obtain ⟨s', hiter, hI', hlen'⟩ := ih (fun i => pick (i + 1)) s'' hI'' (by omega)
    refine ⟨s', ?_, hI', by omega⟩
    rw [primIter, hstep, Option.some_bind]
    exact hiter

/-! ## Claim theorems for maze generation -/

/-- C1: for every `n ≥ 2` and every random choice sequence, `random_prims`
on a fresh `n×n` grid matrix succeeds and produces an edge list of exactly
`n²-1` edges whose undirected edge set touches all `n²` vertices and forms a
connected, acyclic graph on them (a spanning tree). -/
theorem random_prims_spanning_tree (n : Nat) (pick : Nat → Nat) (hn : 2 ≤ n) :
    ∃ s, random_prims n pick = some s ∧
      s.edge_list.length = n * n - 1 ∧
      (∀ v : Fin (n * n), ∃ e ∈ s.edge_list, e.1 = v.val ∨ e.2 = v.val) ∧
      (mazeGraph (n * n) s.edge_list).Connected ∧
      (mazeGraph (n * n) s.edge_list).IsAcyclic := by
  obtain ⟨s, hs, hI, hlenv⟩ := random_prims_total n hn pick
  obtain ⟨hvis, hbnd, hnd, hchain, hmlen, hrows⟩ := hI
  have h4 : 2 * 2 ≤ n * n := Nat.mul_le_mul hn hn
  have hlenE : s.edge_list.length = n * n - 1 := by
    have hlv := congrArg List.length hvis
    rw [List.length_cons, List.length_map] at hlv
    omega
  have hcov : ∀ v, v < n * n → v ∈ s.visited_vertices :=
    covers_all _ _ hnd hbnd hlenv
  refine ⟨s, hs, hlenE, ?_, ?_, ?_⟩
  · intro v
    have hv := hcov v.val v.isLt
    rw [hvis, List.mem_cons] at hv
    rcases hv with hv0 | hvf
    · have hne : s.edge_list ≠ [] := by
        intro h
        rw [h] at hlenE
        simp only [List.length_nil] at hlenE
        omega
      cases hEl : s.edge_list with
      | nil => exact absurd hEl hne
      | cons e es =>
        have hch2 : edgeChain (n * n) [0] (e :: es) := by
          rw [← hEl]
          exact hchain
        obtain ⟨h1, _, _, _⟩ := hch2
        rw [List.mem_singleton] at h1
        refine ⟨e, List.mem_cons_self e es, Or.inr ?_⟩
        rw [h1, ← hv0]
    · obtain ⟨e, he, hfe⟩ := List.mem_map.mp hvf
      exact ⟨e, he, Or.inl hfe⟩
  · have hz : (0 : Nat) < n * n := by omega
    have hreach : ∀ (u : Nat) (hu : u < n * n),
        (mazeGraph (n * n) s.edge_list).Reachable ⟨u, hu⟩ ⟨0, hz⟩ := by
      intro u hu
      refine edgeChain_reachable (n * n) s.edge_list ⟨0, hz⟩ s.edge_list [0] hchain
        (fun e he => he) ?_ ?_ u ?_ hu
      · intro v hv
        rw [List.mem_singleton] at hv
        omega
      · intro v hv h
        rw [List.mem_singleton] at hv
        subst hv
        exact SimpleGraph.Reachable.refl _
      · rw [show ([0] ++ s.edge_list.map Prod.fst) = s.visited_vertices from by
          rw [hvis]; rfl]
        exact hcov u hu
    haveI hnonempty : Nonempty (Fin (n * n)) := ⟨⟨0, hz⟩⟩
    exact SimpleGraph.Connected.mk
      (fun a b => (hreach a.val a.isLt).trans (hreach b.val b.isLt).symm)
  · have hnat := edgeChain_acyclic (n * n) s.edge_list [0] hchain
    intro v c hc
    exact hnat (c.map (SimpleGraph.Hom.comap Fin.val (natGraph s.edge_list)))
      ((SimpleGraph.Walk.map_isCycle_iff_of_injective Fin.val_injective).mpr hc)

theorem random_prims_spanning_tree_witness :
    2 ≤ 2 ∧ ∃ s, random_prims 2 pickZero = some s ∧
      s.edge_list.length = 2 * 2 - 1 ∧
      (∀ v : Fin (2 * 2), ∃ e ∈ s.edge_list, e.1 = v.val ∨ e.2 = v.val) ∧
      (mazeGraph (2 * 2) s.edge_list).Connected ∧
      (mazeGraph (2 * 2) s.edge_list).IsAcyclic :=
  ⟨by omega, random_prims_spanning_tree 2 pickZero (by omega)⟩

/-- C5: for every `n ≥ 2`, at every iteration before all `n²` vertices are
visited the enumerated candidate list is non-empty, so the random choice —
and hence maze generation as a whole — never fails. -/
theorem random_prims_never_fails (n : Nat) (pick : Nat → Nat) (hn : 2 ≤ n) :
    (∀ k, k < n * n - 1 → ∃ s, primIter (n * n) pick k (initState n) = some s ∧
      availableList (n * n) s.matrix s.visited_vertices ≠ []) ∧
    (random_prims n pick).isSome = true := by
  have h4 : 2 * 2 ≤ n * n := Nat.mul_le_mul hn hn
  constructor
  · intro k hk
    obtain ⟨s, hiter, hI, hlen⟩ := primIter_upto n hn k pick (initState n)
      (initState_inv n hn) (by
        show (1 : Nat) + k ≤ n * n
        omega)
    refine ⟨s, hiter, availableList_ne_nil n hn s hI ?_⟩
    have : s.visited_vertices.length = 1 + k := hlen
    omega
  · obtain ⟨s, hs, _, _⟩ := random_prims_total n hn pick
    rw [hs]
    rfl

theorem random_prims_never_fails_witness :
    2 ≤ 2 ∧ ((∀ k, k < 2 * 2 - 1 →
        ∃ s, primIter (2 * 2) pickZero k (initState 2) = some s ∧
          availableList (2 * 2) s.matrix s.visited_vertices ≠ []) ∧
      (random_prims 2 pickZero).isSome = true) :=
  ⟨by omega, random_prims_never_fails 2 pickZero (by omega)⟩

/-- C6 (as stated) is false: in the run for `n = 2` with the first-choice
oracle, generation succeeds with `3 = n²-1` edges but vertex `2` appears
zero times (not exactly once) as a `to` (second) endpoint. -/
theorem random_prims_to_endpoint_cex :
    (random_prims 2 pickZero).map (fun s => (s.edge_list.map Prod.snd).count 2) = some 0 ∧
    (random_prims 2 pickZero).map (fun s => s.edge_list.length) = some 3 := by
  constructor
  · decide
  · decide

/-- C6 (amended): it is the `from` (first) endpoints that are hit exactly
once: every run records each of the `n²-1` non-root vertices exactly once as
a `from` endpoint, and the root `0` never appears as a `from` endpoint. -/
theorem random_prims_from_endpoints (n : Nat) (pick : Nat → Nat) (hn : 2 ≤ n) :
    ∃ s, random_prims n pick = some s ∧
      s.edge_list.length = n * n - 1 ∧
      (∀ v, 1 ≤ v → v < n * n → (s.edge_list.map Prod.fst).count v = 1) ∧
      (s.edge_list.map Prod.fst).count 0 = 0 := by
  obtain ⟨s, hs, hI, hlenv⟩ := random_prims_total n hn pick
  obtain ⟨hvis, hbnd, hnd, _, _, _⟩ := hI
  have hlenE : s.edge_list.length = n * n - 1 := by
    have hlv := congrArg List.length hvis
    rw [List.length_cons, List.length_map] at hlv
    have h4 : 2 * 2 ≤ n * n := Nat.mul_le_mul hn hn
    omega
  have hcov : ∀ v, v < n * n → v ∈ s.visited_vertices :=
    covers_all _ _ hnd hbnd hlenv
  have hnd2 : (0 :: s.edge_list.map Prod.fst).Nodup := hvis ▸ hnd
  obtain ⟨h0f, hndf⟩ := List.nodup_cons.mp hnd2
  refine ⟨s, hs, hlenE, ?_, List.count_eq_zero.mpr h0f⟩
  intro v h1 h2
  have hv := hcov v h2
  rw [hvis, List.mem_cons] at hv
  rcases hv with hv0 | hvf
  · omega
  · exact List.count_eq_one_of_mem hndf hvf

theorem random_prims_from_endpoints_witness :
    2 ≤ 2 ∧ ∃ s, random_prims 2 pickZero = some s ∧
      s.edge_list.length = 2 * 2 - 1 ∧
      (∀ v, 1 ≤ v → v < 2 * 2 → (s.edge_list.map Prod.fst).count v = 1) ∧
      (s.edge_list.map Prod.fst).count 0 = 0 :=
  ⟨by omega, random_prims_from_endpoints 2 pickZero (by omega)⟩

/-- C9: the loop keeps every visited vertex's matrix row all-zero (row `0`
is zeroed at initialization, each chosen vertex's row on absorption); on
termination all `n²` vertices are visited, so every matrix entry is `0`. -/
theorem random_prims_matrix_zero (n : Nat) (pick : Nat → Nat) (hn : 2 ≤ n) :
    ∃ s, random_prims n pick = some s ∧
      (∀ r ∈ s.visited_vertices, s.matrix.getD r [] = List.replicate (n * n) 0) ∧
      (∀ r c, mget s.matrix r c = 0) := by
  obtain ⟨s, hs, hI, hlenv⟩ := random_prims_total n hn pick
  obtain ⟨hvis, hbnd, hnd, hchain, hmlen, hrows⟩ := hI
  have hcov : ∀ v, v < n * n → v ∈ s.visited_vertices :=
    covers_all _ _ hnd hbnd hlenv
  refine ⟨s, hs, ?_, ?_⟩
  · intro r hr
    rw [hrows r (hbnd r hr), if_pos hr]
  · intro r c
    by_cases hr : r < n * n
    · rw [mget, hrows r hr, if_pos (hcov r hr), getD_replicate_zero]
    · have hoob : s.matrix.length ≤ r := by rw [hmlen]; omega
      have hrow : s.matrix.getD r [] = [] := by
        rw [List.getD_eq_getElem?_getD, List.getElem?_eq_none hoob]
        rfl
      rw [mget, hrow]
      rfl

theorem random_prims_matrix_zero_witness :
    2 ≤ 2 ∧ ∃ s, random_prims 2 pickZero = some s ∧
      (∀ r ∈ s.visited_vertices, s.matrix.getD r [] = List.replicate (2 * 2) 0) ∧
      (∀ r c, mget s.matrix r c = 0) :=
  ⟨by omega, random_prims_matrix_zero 2 pickZero (by omega)⟩

/-- C3: the constructed matrix has a `1` exactly at orthogonally adjacent
pairs, is symmetric, holds `2n(n-1)` undirected edges each counted twice
(`4n(n-1)` one-entries over all ordered pairs), and every vertex has degree
2, 3 or 4. -/
theorem initMatrix_spec (n : Nat) (hn : 2 ≤ n) :
    (∀ u v, u < n * n → v < n * n →
      (mget (initMatrix n) u v = 1 ↔ gridAdjacent n u v)) ∧
    (∀ u v, mget (initMatrix n) u v = mget (initMatrix n) v u) ∧
    (((Finset.range (n * n)) ×ˢ (Finset.range (n * n))).filter
      (fun p => mget (initMatrix n) p.1 p.2 = 1)).card = 2 * (2 * n * (n - 1)) ∧
    (∀ u, u < n * n → deg n u = 2 ∨ deg n u = 3 ∨ deg n u = 4) := by
  refine ⟨?_, ?_, initMatrix_count n hn, fun u hu => deg_mem n u hn hu⟩
  · intro u v hu _
    rw [mget, initMatrix_getD_row n u hu]
    exact fillRow_one_iff n u v hn hu
  · intro u v
    exact mget_initMatrix_symm n u v hn

theorem initMatrix_spec_witness :
    2 ≤ 2 ∧ ((∀ u v, u < 2 * 2 → v < 2 * 2 →
        (mget (initMatrix 2) u v = 1 ↔ gridAdjacent 2 u v)) ∧
      (∀ u v, mget (initMatrix 2) u v = mget (initMatrix 2) v u) ∧
      (((Finset.range (2 * 2)) ×ˢ (Finset.range (2 * 2))).filter
        (fun p => mget (initMatrix 2) p.1 p.2 = 1)).card = 2 * (2 * 2 * (2 - 1)) ∧
      (∀ u, u < 2 * 2 → deg 2 u = 2 ∨ deg 2 u = 3 ∨ deg 2 u = 4)) :=
  ⟨by omega, initMatrix_spec 2 (by omega)⟩

theorem createBaseAux_length (n : Nat) (b s : ℚ) :
    ∀ k row col, (createBaseAux n b s k row col).length = k := by
  intro k
  induction k with
  | zero => intro row col; rfl
  | succ k ih =>
    intro row col
    rw [createBaseAux, List.length_cons, ih]

theorem createBaseAux_getD (n : Nat) (b s : ℚ) (hn : 0 < n) :
    ∀ (k row col : Nat), col ≤ n → ∀ i, i < k →
      (createBaseAux n b s k row col).getD i default =
        ⟨(((row * n + col + i) / n : Nat) : ℚ) * b + s,
         (((row * n + col + i) % n : Nat) : ℚ) * b + s, COLOUR_Black⟩ := by
  intro k
  induction k with
  | zero =>
    intro row col _ i hi
    omega
  | succ k ih =>
    intro row col hcol i hi
    rw [createBaseAux]
    set row' := if col = n then row + 1 else row with hrow'
    set col' := if col = n then 0 else col with hcol'
    have hcol'lt : col' < n := by
      rw [hcol']
      split_ifs <;> omega
    have hval : n * row' + col' = row * n + col := by
      rw [hrow', hcol']
      split_ifs with h
      · subst h
        ring
      · ring
    cases i with
    | zero =>
      show (⟨(row' : ℚ) * b + s, (col' : ℚ) * b + s, COLOUR_Black⟩ : SquareT) = _
      obtain ⟨hdiv, hmod⟩ := div_mod_decomp n row' col' hn hcol'lt
      rw [hval] at hdiv hmod
      have hx : ((row * n + col + 0) / n : Nat) = row' := by rw [Nat.add_zero]; exact hdiv
      have hy : ((row * n + col + 0) % n : Nat) = col' := by rw [Nat.add_zero]; exact hmod
      rw [hx, hy]
    | succ j =>
      show (createBaseAux n b s k row' (col' + 1)).getD j default = _
      rw [ih row' (col' + 1) (by omega) j (by omega)]
      have harith : row' * n + (col' + 1) + j = row * n + col + (j + 1) := by
        have h2 : row' * n = n * row' := Nat.mul_comm _ _
        omega
      rw [harith]

theorem createBaseAux_colour (n : Nat) (b s : ℚ) :
    ∀ k row col, ∀ sq ∈ createBaseAux n b s k row col, sq.colour = COLOUR_Black := by
  intro k
  induction k with
  | zero =>
    intro row col sq hsq
    exact absurd hsq (List.not_mem_nil sq)
  | succ k ih =>
    intro row col sq hsq
    rw [createBaseAux, List.mem_cons] at hsq
    rcases hsq with rfl | hsq
    · rfl
    · exact ih _ _ sq hsq

theorem markGoal_length (l : List SquareT) : (markGoal l).length = l.length := by
  rw [markGoal, List.length_set]

theorem markGoal_getD_xy (l : List SquareT) (j : Nat) :
    ((markGoal l).getD j default).x = (l.getD j default).x ∧
    ((markGoal l).getD j default).y = (l.getD j default).y := by
  rw [markGoal, getD_set]
  split_ifs with h
  · obtain ⟨rfl, _⟩ := h
    exact ⟨rfl, rfl⟩
  · exact ⟨rfl, rfl⟩

theorem create_grid_length (n : Nat) (edge_list : List (Nat × Nat)) :
    (create_grid n edge_list).length = n * n + edge_list.length := by
  rw [create_grid, List.length_append, List.length_map, markGoal_length,
    createBaseAux_length]

/-- C4: for `n ≥ 2` and an edge list of length `n²-1`, `create_grid`
produces exactly `2n²-1` squares (`n²` base squares then `n²-1` connectors),
and the square at index `n²-1` — the last base square — is the unique one
coloured green (the goal tile). -/
theorem create_grid_spec (n : Nat) (edge_list : List (Nat × Nat)) (hn : 2 ≤ n)
    (hlen : edge_list.length = n * n - 1) :
    (create_grid n edge_list).length = 2 * (n * n) - 1 ∧
    ((create_grid n edge_list).drop (n * n)).length = n * n - 1 ∧
    (∀ j, j < (create_grid n edge_list).length →
      (((create_grid n edge_list).getD j default).colour = COLOUR_Green ↔ j = n * n - 1)) := by
  have h4 : 2 * 2 ≤ n * n := Nat.mul_le_mul hn hn
  have hL : (create_grid n edge_list).length = n * n + edge_list.length :=
    create_grid_length n edge_list
  have hBlen : (createBaseAux n (base_square n) (small_square n) (n * n) 0 0).length
      = n * n := createBaseAux_length n _ _ _ 0 0
  have hmbL : (markGoal (createBaseAux n (base_square n) (small_square n) (n * n) 0 0)).length
      = n * n := by rw [markGoal_length, hBlen]
  refine ⟨by omega, by rw [List.length_drop]; omega, ?_⟩
  intro j hj
  have hcg : create_grid n edge_list
      = markGoal (createBaseAux n (base_square n) (small_square n) (n * n) 0 0)
        ++ edge_list.map (connector
          (markGoal (createBaseAux n (base_square n) (small_square n) (n * n) 0 0))) := rfl
  by_cases hjb : j < n * n
  · rw [hcg, List.getD_append _ _ default j (by omega)]
    rw [markGoal, getD_set, hBlen]
    by_cases hjg : j = n * n - 1
    · rw [if_pos ⟨hjg, by omega⟩]
      constructor
      · intro _
        exact hjg
      · intro _
        rfl
    · rw [if_neg (by
        intro hc
        exact hjg hc.1)]
      have hbl : ((createBaseAux n (base_square n) (small_square n) (n * n) 0 0).getD
          j default).colour = COLOUR_Black := by
        apply createBaseAux_colour
        have hjlt : j < (createBaseAux n (base_square n) (small_square n) (n * n) 0 0).length := by
          omega
        rw [List.getD_eq_getElem?_getD, List.getElem?_eq_getElem hjlt]
        exact List.getElem_mem hjlt
      rw [hbl]
      constructor
      · intro hc
        exact absurd hc (by decide)
      · intro hc
        exact absurd hc hjg
  · rw [hcg, List.getD_append_right _ _ default j (by omega)]
    have hjc : j - (markGoal (createBaseAux n (base_square n) (small_square n) (n * n) 0 0)).length
        < (edge_list.map (connector (markGoal (createBaseAux n (base_square n)
            (small_square n) (n * n) 0 0)))).length := by
      rw [List.length_map, hmbL]
      omega
    have hmem := List.getElem_mem hjc
    rw [List.getD_eq_getElem?_getD, List.getElem?_eq_getElem hjc]
    obtain ⟨e, _, heq⟩ := List.mem_map.mp hmem
    rw [Option.getD_some, ← heq]
    have hcol : (connector (markGoal (createBaseAux n (base_square n) (small_square n)
        (n * n) 0 0)) e).colour = COLOUR_Black := rfl
    rw [hcol]
    constructor
    · intro hc
      exact absurd hc (by decide)
    · intro hc
      omega

theorem create_grid_spec_witness :
    2 ≤ 2 ∧ ([(1,0),(2,0),(3,1)] : List (Nat × Nat)).length = 2 * 2 - 1 ∧
      ((create_grid 2 [(1,0),(2,0),(3,1)]).length = 2 * (2 * 2) - 1 ∧
        ((create_grid 2 [(1,0),(2,0),(3,1)]).drop (2 * 2)).length = 2 * 2 - 1 ∧
        (∀ j, j < (create_grid 2 [(1,0),(2,0),(3,1)]).length →
          (((create_grid 2 [(1,0),(2,0),(3,1)]).getD j default).colour = COLOUR_Green
            ↔ j = 2 * 2 - 1))) :=
  ⟨by omega, by decide, create_grid_spec 2 [(1,0),(2,0),(3,1)] (by omega) (by decide)⟩

/-- C10: base square `i` sits at `x = (i / n) * base_square + small_square`
and `y = (i % n) * base_square + small_square`: the `x` coordinate comes from
the row index `i / n` and the `y` coordinate from the column index `i % n`
(the transpose of the conventional row-major screen mapping). -/
theorem create_grid_base_positions (n : Nat) (edge_list : List (Nat × Nat)) (hn : 2 ≤ n)
    (i : Nat) (hi : i < n * n) :
    ((create_grid n edge_list).getD i default).x
        = ((i / n : Nat) : ℚ) * base_square n + small_square n ∧
    ((create_grid n edge_list).getD i default).y
        = ((i % n : Nat) : ℚ) * base_square n + small_square n := by
  have hBlen : (createBaseAux n (base_square n) (small_square n) (n * n) 0 0).length
      = n * n := createBaseAux_length n _ _ _ 0 0
  have hmbL : (markGoal (createBaseAux n (base_square n) (small_square n) (n * n) 0 0)).length
      = n * n := by rw [markGoal_length, hBlen]
  have hcg : create_grid n edge_list
      = markGoal (createBaseAux n (base_square n) (small_square n) (n * n) 0 0)
        ++ edge_list.map (connector
          (markGoal (createBaseAux n (base_square n) (small_square n) (n * n) 0 0))) := rfl
  rw [hcg, List.getD_append _ _ default i (by omega)]
  obtain ⟨hx, hy⟩ := markGoal_getD_xy
    (createBaseAux n (base_square n) (small_square n) (n * n) 0 0) i
  rw [hx, hy, createBaseAux_getD n (base_square n) (small_square n) (by omega) (n * n) 0 0
    (by omega) i hi]
  have h0 : 0 * n + 0 + i = i := by omega
  rw [h0]
  exact ⟨rfl, rfl⟩

theorem create_grid_base_positions_witness :
    2 ≤ 2 ∧ 3 < 2 * 2 ∧
      (((create_grid 2 []).getD 3 default).x
          = ((3 / 2 : Nat) : ℚ) * base_square 2 + small_square 2 ∧
        ((create_grid 2 []).getD 3 default).y
          = ((3 % 2 : Nat) : ℚ) * base_square 2 + small_square 2) :=
  ⟨by omega, by omega, create_grid_base_positions 2 [] (by omega) 3 (by omega)⟩

theorem cornerStep_eq_B (sq : PathRect) (corners : List (ℝ × ℝ)) (st : List Bool × Bool)
    (k : Nat) :
    cornerStep sq corners st k
      = cornerStepB (fun j => collidepoint sq (corners.getD j (0, 0))) st k := rfl

/-- Closed form of the four corner iterations on a not-yet-complete state:
the flags accumulate the collision results and the completion flag is set
exactly when all four accumulated flags are true (checked over all 256
Boolean cases). -/
theorem tileScanB_formula : ∀ (p0 p1 p2 p3 a b c d : Bool),
    (List.range 4).foldl (cornerStepB (fun k => [p0, p1, p2, p3].getD k false))
        ([a, b, c, d], false)
      = ([a || p0, b || p1, c || p2, d || p3],
         (a || p0) && ((b || p1) && ((c || p2) && (d || p3)))) := by decide

theorem foldl_cornerStepB_congr (p q : Nat → Bool) (h : ∀ k, k < 4 → p k = q k)
    (st : List Bool × Bool) :
    (List.range 4).foldl (cornerStepB p) st = (List.range 4).foldl (cornerStepB q) st := by
  have hr4 : List.range 4 = [0, 1, 2, 3] := rfl
  rw [hr4]
  simp only [List.foldl, cornerStepB]
  rw [h 0 (by omega), h 1 (by omega), h 2 (by omega), h 3 (by omega)]

theorem tileScan_spec (corners : List (ℝ × ℝ)) (sq : PathRect) (a b c d : Bool) :
    tileScan corners ([a, b, c, d], false) sq
      = ([a || collidepoint sq (corners.getD 0 (0, 0)),
          b || collidepoint sq (corners.getD 1 (0, 0)),
          c || collidepoint sq (corners.getD 2 (0, 0)),
          d || collidepoint sq (corners.getD 3 (0, 0))],
         (a || collidepoint sq (corners.getD 0 (0, 0)))
           && ((b || collidepoint sq (corners.getD 1 (0, 0)))
           && ((c || collidepoint sq (corners.getD 2 (0, 0)))
           && (d || collidepoint sq (corners.getD 3 (0, 0)))))) := by
  have he : tileScan corners ([a, b, c, d], false) sq
      = (List.range 4).foldl
          (cornerStepB (fun j => collidepoint sq (corners.getD j (0, 0))))
          ([a, b, c, d], false) := rfl
  rw [he, foldl_cornerStepB_congr _
    (fun k => [collidepoint sq (corners.getD 0 (0, 0)),
               collidepoint sq (corners.getD 1 (0, 0)),
               collidepoint sq (corners.getD 2 (0, 0)),
               collidepoint sq (corners.getD 3 (0, 0))].getD k false)
    (by
      intro k hk
      interval_cases k <;> rfl)]
  rw [tileScanB_formula]

theorem tileScan_frozen (corners : List (ℝ × ℝ)) (sq : PathRect) (flags : List Bool) :
    tileScan corners (flags, true) sq = (flags, true) := by
  have hstep : ∀ k, cornerStep sq corners (flags, true) k = (flags, true) := fun k => rfl
  have hr4 : List.range 4 = [0, 1, 2, 3] := rfl
  rw [tileScan, hr4]
  simp only [List.foldl, hstep]

theorem scan_frozen_all (corners : List (ℝ × ℝ)) (tiles : List PathRect) (flags : List Bool) :
    tiles.foldl (tileScan corners) (flags, true) = (flags, true) := by
  induction tiles with
  | nil => rfl
  | cons sq tiles ih =>
    rw [List.foldl_cons, tileScan_frozen]
    exact ih

theorem bool_or_exists (a p : Bool) (sq : PathRect) (tiles : List PathRect)
    (P : PathRect → Bool) (hp : p = P sq) :
    ((a || p) = true ∨ ∃ t ∈ tiles, P t = true) ↔
      (a = true ∨ ∃ t ∈ sq :: tiles, P t = true) := by
  rw [Bool.or_eq_true]
  constructor
  · rintro ((ha | hp') | ⟨t, ht, hPt⟩)
    · exact Or.inl ha
    · exact Or.inr ⟨sq, List.mem_cons_self sq tiles, hp ▸ hp'⟩
    · exact Or.inr ⟨t, List.mem_cons_of_mem sq ht, hPt⟩
  · rintro (ha | ⟨t, ht, hPt⟩)
    · exact Or.inl (Or.inl ha)
    · rcases List.mem_cons.mp ht with rfl | ht'
      · exact Or.inl (Or.inr (hp ▸ hPt))
      · exact Or.inr ⟨t, ht', hPt⟩

/-- The scanning loop for one axis terminates with the completion flag set
exactly when every one of the four corners is inside some scanned tile. -/
theorem scan_complete (corners : List (ℝ × ℝ)) :
    ∀ (tiles : List PathRect) (a b c d : Bool),
      ¬(a = true ∧ b = true ∧ c = true ∧ d = true) →
      ((tiles.foldl (tileScan corners) ([a, b, c, d], false)).2 = true ↔
        ((a = true ∨ ∃ sq ∈ tiles, collidepoint sq (corners.getD 0 (0, 0)) = true) ∧
         (b = true ∨ ∃ sq ∈ tiles, collidepoint sq (corners.getD 1 (0, 0)) = true) ∧
         (c = true ∨ ∃ sq ∈ tiles, collidepoint sq (corners.getD 2 (0, 0)) = true) ∧
         (d = true ∨ ∃ sq ∈ tiles, collidepoint sq (corners.getD 3 (0, 0)) = true))) := by
  intro tiles
  induction tiles with
  | nil =>
    intro a b c d hne
    simp only [List.foldl_nil, List.not_mem_nil, false_and, exists_false,
      exists_prop, or_false]
    constructor
    · intro h
      exact absurd h (by decide)
    · intro h
      exact absurd h hne
  | cons sq tiles ih =>
    intro a b c d hne
    rw [List.foldl_cons, tileScan_spec]
    by_cases hall : ((a || collidepoint sq (corners.getD 0 (0, 0)))
        && ((b || collidepoint sq (corners.getD 1 (0, 0)))
        && ((c || collidepoint sq (corners.getD 2 (0, 0)))
        && (d || collidepoint sq (corners.getD 3 (0, 0)))))) = true
    · rw [hall, scan_frozen_all]
      obtain ⟨h0, h1, h2, h3⟩ : (a || collidepoint sq (corners.getD 0 (0, 0))) = true ∧
          (b || collidepoint sq (corners.getD 1 (0, 0))) = true ∧
          (c || collidepoint sq (corners.getD 2 (0, 0))) = true ∧
          (d || collidepoint sq (corners.getD 3 (0, 0))) = true := by
        simpa [Bool.and_eq_true] using hall
      have hmk : ∀ (x : Bool) (k : Nat),
          (x || collidepoint sq (corners.getD k (0, 0))) = true →
          (x = true ∨ ∃ t ∈ sq :: tiles, collidepoint t (corners.getD k (0, 0)) = true) := by
        intro x k hx
        rw [Bool.or_eq_true] at hx
        rcases hx with hx' | hx'
        · exact Or.inl hx'
        · exact Or.inr ⟨sq, List.mem_cons_self sq tiles, hx'⟩
      constructor
      · intro _
        exact ⟨hmk a 0 h0, hmk b 1 h1, hmk c 2 h2, hmk d 3 h3⟩
      · intro _
        rfl
    · have hfalse : ((a || collidepoint sq (corners.getD 0 (0, 0)))
          && ((b || collidepoint sq (corners.getD 1 (0, 0)))
          && ((c || collidepoint sq (corners.getD 2 (0, 0)))
          && (d || collidepoint sq (corners.getD 3 (0, 0)))))) = false :=
        Bool.eq_false_iff.mpr hall
      rw [hfalse]
      have hne' : ¬((a || collidepoint sq (corners.getD 0 (0, 0))) = true ∧
          (b || collidepoint sq (corners.getD 1 (0, 0))) = true ∧
          (c || collidepoint sq (corners.getD 2 (0, 0))) = true ∧
          (d || collidepoint sq (corners.getD 3 (0, 0))) = true) := by
        intro hc
        exact hall (by rw [hc.1, hc.2.1, hc.2.2.1, hc.2.2.2]; rfl)
      rw [ih _ _ _ _ hne']
      rw [bool_or_exists a (collidepoint sq (corners.getD 0 (0, 0))) sq tiles
            (fun t => collidepoint t (corners.getD 0 (0, 0))) rfl,
          bool_or_exists b (collidepoint sq (corners.getD 1 (0, 0))) sq tiles
            (fun t => collidepoint t (corners.getD 1 (0, 0))) rfl,
          bool_or_exists c (collidepoint sq (corners.getD 2 (0, 0))) sq tiles
            (fun t => collidepoint t (corners.getD 2 (0, 0))) rfl,
          bool_or_exists d (collidepoint sq (corners.getD 3 (0, 0))) sq tiles
            (fun t => collidepoint t (corners.getD 3 (0, 0))) rfl]

theorem foldl_pair {α β γ : Type} (f : α → γ → α) (g : β → γ → β) :
    ∀ (l : List γ) (a : α) (b : β),
      l.foldl (fun st c => (f st.1 c, g st.2 c)) (a, b) = (l.foldl f a, l.foldl g b) := by
  intro l
  induction l with
  | nil => intro a b; rfl
  | cons x l ih =>
    intro a b
    rw [List.foldl_cons, List.foldl_cons, List.foldl_cons]
    exact ih (f a x) (g b x)

theorem tileStep_pair (cx cy : List (ℝ × ℝ)) (sq : PathRect) (s1 s2 : List Bool × Bool) :
    tileStep cx cy (s1, s2) sq = (tileScan cx s1 sq, tileScan cy s2 sq) := by
  rw [tileStep, tileScan, tileScan]
  exact foldl_pair (cornerStep sq cx) (cornerStep sq cy) (List.range 4) s1 s2

theorem foldl_tileStep_pair (cx cy : List (ℝ × ℝ)) (tiles : List PathRect) :
    ∀ (s1 s2 : List Bool × Bool),
      tiles.foldl (tileStep cx cy) (s1, s2)
        = (tiles.foldl (tileScan cx) s1, tiles.foldl (tileScan cy) s2) := by
  induction tiles with
  | nil => intro s1 s2; rfl
  | cons sq tiles ih =>
    intro s1 s2
    rw [List.foldl_cons, List.foldl_cons, List.foldl_cons, tileStep_pair]
    exact ih _ _

theorem onPath_iff (tiles : List PathRect) (p : PlayerS) (coord : ℝ × ℝ) :
    onPath tiles (gen_corners p coord) ↔
      ((∃ sq ∈ tiles, collidepoint sq ((gen_corners p coord).getD 0 (0, 0)) = true) ∧
       (∃ sq ∈ tiles, collidepoint sq ((gen_corners p coord).getD 1 (0, 0)) = true) ∧
       (∃ sq ∈ tiles, collidepoint sq ((gen_corners p coord).getD 2 (0, 0)) = true) ∧
       (∃ sq ∈ tiles, collidepoint sq ((gen_corners p coord).getD 3 (0, 0)) = true)) := by
  constructor
  · intro h
    exact ⟨h _ (by rw [gen_corners]; exact List.mem_cons_self _ _),
           h _ (by rw [gen_corners]; simp),
           h _ (by rw [gen_corners]; simp),
           h _ (by rw [gen_corners]; simp)⟩
  · rintro ⟨h0, h1, h2, h3⟩ c hc
    rw [gen_corners] at hc
    rcases List.mem_cons.mp hc with rfl | hc
    · exact h0
    rcases List.mem_cons.mp hc with rfl | hc
    · exact h1
    rcases List.mem_cons.mp hc with rfl | hc
    · exact h2
    rcases List.mem_cons.mp hc with rfl | hc
    · exact h3
    · exact absurd hc (List.not_mem_nil c)

/-- The completion Boolean of one axis of the scan, as the `onPath`
predicate on that axis's corners. -/
theorem scan_onPath (tiles : List PathRect) (p : PlayerS) (coord : ℝ × ℝ) :
    ((tiles.foldl (tileScan (gen_corners p coord)) ([false, false, false, false], false)).2
        = true) ↔ onPath tiles (gen_corners p coord) := by
  rw [scan_complete (gen_corners p coord) tiles false false false false (by simp),
    onPath_iff]
  simp only [Bool.false_eq_true, false_or]

theorem move_pos_formula (tiles : List PathRect) (dt : ℝ) (p : PlayerS) (v : ℝ × ℝ) :
    (Player.move tiles dt p v).pos =
      (if (tiles.foldl (tileScan (gen_corners p
              (p.pos.1 + (normalized v).1 * p.velocity * dt, p.pos.2)))
            ([false, false, false, false], false)).2 = true
        then p.pos.1 + (normalized v).1 * p.velocity * dt else p.pos.1,
       if (tiles.foldl (tileScan (gen_corners p
              (p.pos.1, p.pos.2 + (normalized v).2 * p.velocity * dt)))
            ([false, false, false, false], false)).2 = true
        then p.pos.2 + (normalized v).2 * p.velocity * dt else p.pos.2) := by
  simp only [Player.move]
  rw [foldl_tileStep_pair]
  by_cases hx : (tiles.foldl (tileScan (gen_corners p
      (p.pos.1 + (normalized v).1 * p.velocity * dt, p.pos.2)))
      ([false, false, false, false], false)).2 = true <;>
    by_cases hy : (tiles.foldl (tileScan (gen_corners p
        (p.pos.1, p.pos.2 + (normalized v).2 * p.velocity * dt)))
        ([false, false, false, false], false)).2 = true <;>
    simp [hx, hy]

open Classical in
/-- C2: each axis of `Player.move` is resolved independently: an axis
commits its candidate coordinate exactly when all four margin-inset corners
of the body, moved along that axis only, lie inside some path square
(otherwise it retains the current coordinate); consequently any axis that
actually moved has all four corners on the path. -/
theorem move_axis_resolution (tiles : List PathRect) (dt : ℝ) (p : PlayerS) (v : ℝ × ℝ) :
    ((Player.move tiles dt p v).pos =
      (if onPath tiles (gen_corners p
            (p.pos.1 + (normalized v).1 * p.velocity * dt, p.pos.2))
        then p.pos.1 + (normalized v).1 * p.velocity * dt else p.pos.1,
       if onPath tiles (gen_corners p
            (p.pos.1, p.pos.2 + (normalized v).2 * p.velocity * dt))
        then p.pos.2 + (normalized v).2 * p.velocity * dt else p.pos.2)) ∧
    ((Player.move tiles dt p v).pos.1 ≠ p.pos.1 →
      onPath tiles (gen_corners p ((Player.move tiles dt p v).pos.1, p.pos.2))) ∧
    ((Player.move tiles dt p v).pos.2 ≠ p.pos.2 →
      onPath tiles (gen_corners p (p.pos.1, (Player.move tiles dt p v).pos.2))) := by
  have hA := scan_onPath tiles p (p.pos.1 + (normalized v).1 * p.velocity * dt, p.pos.2)
  have hB := scan_onPath tiles p (p.pos.1, p.pos.2 + (normalized v).2 * p.velocity * dt)
  have hmain : (Player.move tiles dt p v).pos =
      (if onPath tiles (gen_corners p
            (p.pos.1 + (normalized v).1 * p.velocity * dt, p.pos.2))
        then p.pos.1 + (normalized v).1 * p.velocity * dt else p.pos.1,
       if onPath tiles (gen_corners p
            (p.pos.1, p.pos.2 + (normalized v).2 * p.velocity * dt))
        then p.pos.2 + (normalized v).2 * p.velocity * dt else p.pos.2) := by
    rw [move_pos_formula, Prod.mk.injEq]
    exact ⟨if_congr hA rfl rfl, if_congr hB rfl rfl⟩
  refine ⟨hmain, ?_, ?_⟩
  · intro hne
    by_cases hox : onPath tiles (gen_corners p
        (p.pos.1 + (normalized v).1 * p.velocity * dt, p.pos.2))
    · have hp1 : (Player.move tiles dt p v).pos.1
          = p.pos.1 + (normalized v).1 * p.velocity * dt := by
        rw [hmain]
        simp [hox]
      rw [hp1]
      exact hox
    · exfalso
      apply hne
      rw [hmain]
      simp [hox]
  · intro hne
    by_cases hoy : onPath tiles (gen_corners p
        (p.pos.1, p.pos.2 + (normalized v).2 * p.velocity * dt))
    · have hp2 : (Player.move tiles dt p v).pos.2
          = p.pos.2 + (normalized v).2 * p.velocity * dt := by
        rw [hmain]
        simp [hoy]
      rw [hp2]
      exact hoy
    · exfalso
      apply hne
      rw [hmain]
      simp [hoy]

theorem magnitude_zero : magnitude (0, 0) = 0 := by
  rw [magnitude]
  norm_num

theorem normalized_zero : normalized (0, 0) = (0, 0) := by
  rw [normalized, if_pos (Or.inl magnitude_zero)]

theorem move_zero (tiles : List PathRect) (dt : ℝ) (p : PlayerS) :
    Player.move tiles dt p (0, 0) = p := by
  have hpos : (Player.move tiles dt p (0, 0)).pos = p.pos := by
    rw [move_pos_formula, normalized_zero]
    simp
  exact PlayerS.ext hpos rfl rfl rfl

/-- C7: the zero input vector skips normalization (its magnitude is `0`) and
never changes the body's position, over any number of consecutive frames
with arbitrary frame times. -/
theorem move_zero_vector (tiles : List PathRect) (p : PlayerS) (dts : Nat → ℝ) (N : Nat) :
    magnitude (0, 0) = 0 ∧ normalized (0, 0) = (0, 0) ∧
    ((List.range N).foldl (fun q i => Player.move tiles (dts i) q (0, 0)) p) = p := by
  refine ⟨magnitude_zero, normalized_zero, ?_⟩
  have hgen : ∀ (l : List Nat) (q : PlayerS),
      l.foldl (fun q i => Player.move tiles (dts i) q (0, 0)) q = q := by
    intro l
    induction l with
    | nil => intro q; rfl
    | cons i l ih =>
      intro q
      rw [List.foldl_cons, move_zero]
      exact ih q
  exact hgen (List.range N) p

end MazeGame
